import Mathlib

/-!
# Verification of the Gramps XML import/reconciliation engine (malbat)

Shallow embedding of the import pipeline implemented in
`familytree/management/commands/import_gramps.py` and of the model method
`Person.has_local_modifications` from `familytree/models.py`, together with
theorems settling the specification claims about them.

Conventions:
* Python `datetime.date` values are modelled by `PyDate` (year/month/day as
  naturals) with the same validity domain as the CPython constructor
  (years 1..9999, real month lengths including leap years).
* Timestamps (`updated_at`, `gramps_last_updated`, the Gramps `change`
  attribute) are modelled as integer microseconds since the epoch; the
  one-second tolerance of `has_local_modifications` is 1000000 microseconds.
* Database tables are modelled as insertion-ordered association lists keyed
  by `gramps_id`; `update_or_create` updates the existing row in place or
  appends a new one, matching row identity and default-ordering semantics.
* Fallible Python behaviour (uncaught `IntegrityError` on a NULL place id,
  uncaught attribute errors when associating notes to id-less records,
  `unique_together` violations on `FamilyChild`) is modelled with `Option`.
-/

namespace Malbat

/-! ## Dates (model of Python `datetime.date`) -/

structure PyDate where
  year : Nat
  month : Nat
  day : Nat
deriving DecidableEq

/-- Length of a month, with the Gregorian leap-year rule used by
`datetime.date`. -/
def daysInMonth (y m : Nat) : Nat :=
  if m = 2 then
    if y % 4 = 0 ∧ (y % 100 ≠ 0 ∨ y % 400 = 0) then 29 else 28
  else if m = 4 ∨ m = 6 ∨ m = 9 ∨ m = 11 then 30
  else 31

/-- `datetime.date(y, m, d)`: `some` on the constructor's domain, `none`
where CPython raises `ValueError`. -/
def mkDate? (y m d : Nat) : Option PyDate :=
  if 1 ≤ y ∧ y ≤ 9999 ∧ 1 ≤ m ∧ m ≤ 12 ∧ 1 ≤ d ∧ d ≤ daysInMonth y m then
    some ⟨y, m, d⟩
  else none

/-! ## String helpers

Python string primitives, re-implemented over character lists so that they
reduce inside the kernel. -/

/-- The characters Python `str.strip()` removes. -/
def isPySpace (c : Char) : Bool :=
  c = ' ' ∨ c = '\t' ∨ c = '\n' ∨ c = '\r' ∨ c = '\x0b' ∨ c = '\x0c'

/-- Python `str.strip()`. -/
def pyStrip (s : String) : String :=
  ⟨((s.toList.dropWhile isPySpace).reverse.dropWhile isPySpace).reverse⟩

/-- Python `str.upper()` (ASCII). -/
def pyUpper (s : String) : String :=
  ⟨s.toList.map Char.toUpper⟩

/-- Python `str.lower()` (ASCII). -/
def pyLower (s : String) : String :=
  ⟨s.toList.map Char.toLower⟩

/-- Python `str.endswith(suffix)`. -/
def strEndsWith (s suffix : String) : Bool :=
  suffix.toList.isSuffixOf s.toList

def splitOnChar (cs : List Char) (c : Char) : List (List Char) :=
  match cs with
  | [] => [[]]
  | x :: rest =>
    let r := splitOnChar rest c
    if x = c then [] :: r
    else
      match r with
      | [] => [[x]]
      | h :: t => (x :: h) :: t

/-- Python `s.split(c)` for a single-character separator. -/
def pySplit (s : String) (c : Char) : List String :=
  (splitOnChar s.toList c).map (fun l => ⟨l⟩)

/-! ## Parse-stage field helpers (from `Command._parse_xml`) -/

/-- Python `str.isdigit()` restricted to ASCII digits: true on nonempty
all-digit strings. -/
def isDigitStr (s : String) : Bool :=
  s.length > 0 && s.toList.all Char.isDigit

/-- Python `int(...)` on a digit string. -/
def digitsToNat (s : String) : Nat :=
  s.toList.foldl (fun n c => n * 10 + (c.toNat - 48)) 0

/-- Python `s.count(c)` for a single character. -/
def countChar (s : String) (c : Char) : Nat :=
  s.toList.foldl (fun n x => if x = c then n + 1 else n) 0

/-- `datetime.date.fromisoformat` on a 10-character string: strict
`YYYY-MM-DD` shape, `none` where CPython raises `ValueError`. -/
def fromIsoFormat10 (s : String) : Option PyDate :=
  let cs := s.toList
  if cs.length = 10 ∧ (cs.take 4).all Char.isDigit ∧ cs.get? 4 = some '-' ∧
      ((cs.drop 5).take 2).all Char.isDigit ∧ cs.get? 7 = some '-' ∧
      (cs.drop 8).all Char.isDigit then
    mkDate? (digitsToNat ⟨cs.take 4⟩) (digitsToNat ⟨(cs.drop 5).take 2⟩)
      (digitsToNat ⟨cs.drop 8⟩)
  else none

/-- Event date parsing, from `import_gramps.py` lines 254-271: a falsy
(absent or empty) value yields no date; a 4-digit value becomes January 1 of
that year; a `YYYY-MM` value (length 7, one hyphen, digit parts) becomes the
first of that month; a 10-character two-hyphen value goes through
`date.fromisoformat`; every `ValueError`/`TypeError` is caught and yields no
date. -/
def parseEventDate (dateStr : Option String) : Option PyDate :=
  match dateStr with
  | none => none
  | some s =>
    if s = "" then none
    else if s.length = 4 ∧ isDigitStr s then
      mkDate? (digitsToNat s) 1 1
    else if s.length = 7 ∧ countChar s '-' = 1 then
      match pySplit s '-' with
      | [y, m] =>
        if isDigitStr y ∧ isDigitStr m then mkDate? (digitsToNat y) (digitsToNat m) 1
        else none
      | _ => none
    else if s.length = 10 ∧ countChar s '-' = 2 then
      fromIsoFormat10 s
    else none

/-- Gender extraction, from `import_gramps.py` lines 169-172: default `"U"`,
overwritten by `text.strip().upper()` whenever the `gender` element has
truthy (non-`None`, nonempty) text.  Note: the code performs no restriction
to the codes `M`/`F`/`U`. -/
def parseGender (genderText : Option String) : String :=
  match genderText with
  | none => "U"
  | some t => if t = "" then "U" else pyUpper (pyStrip t)

/-! ## `Person.has_local_modifications` (from `familytree/models.py` 78-93) -/

/-- One second, in microseconds. -/
def toleranceUs : Int := 1000000

/-- `Person.has_local_modifications`: `True` when never synchronized
(`gramps_last_updated` is `None`); `False` when `updated_at` is `None`;
otherwise `updated_at - gramps_last_updated > timedelta(seconds=1)`. -/
def has_local_modifications (updated_at gramps_last_updated : Option Int) : Bool :=
  match gramps_last_updated with
  | none => true
  | some g =>
    match updated_at with
    | none => false
    | some u => decide (u - g > toleranceUs)

/-! ## Association-list tables

Database tables keyed by `gramps_id`, in insertion order.  `alook` is row
lookup by key; `updateOrCreate` is Django `update_or_create`: apply the
defaults to the existing row in place, or append a freshly created row;
`updateRow` is a plain `save()` of changed fields on an existing row. -/

def alook {β : Type} (t : List (String × β)) (k : String) : Option β :=
  match t with
  | [] => none
  | (k', v) :: rest => if k' = k then some v else alook rest k

def updateOrCreate {β : Type} (t : List (String × β)) (k : String)
    (upd : β → β) (new : β) : List (String × β) :=
  match t with
  | [] => [(k, new)]
  | (k', v) :: rest =>
    if k' = k then (k', upd v) :: rest
    else (k', v) :: updateOrCreate rest k upd new

def updateRow {β : Type} (t : List (String × β)) (k : String)
    (f : β → β) : List (String × β) :=
  match t with
  | [] => []
  | (k', v) :: rest =>
    if k' = k then (k', f v) :: rest
    else (k', v) :: updateRow rest k f

def keysOf {β : Type} (t : List (String × β)) : List String := t.map (·.1)

/-! ## Persisted rows (from `familytree/models.py`) -/

structure PlaceRow where
  name : String
deriving DecidableEq

structure PersonRow where
  first_name : String
  last_name : String
  gender : String
  gramps_last_updated : Option Int
  birth_date : Option PyDate
  death_date : Option PyDate
  is_deceased : Bool
deriving DecidableEq

structure FamilyRow where
  father : Option String
  mother : Option String
deriving DecidableEq

structure EventRow where
  type : String
  date : Option PyDate
  place : Option String
  description : String
  person : Option String
  family : Option String
deriving DecidableEq

structure NoteRow where
  text : String
  person : Option String
  family : Option String
  event : Option String
deriving DecidableEq

structure MediaRow where
  file_path : String
  mime_type : String
  description : String
deriving DecidableEq

/-- A `FamilyChild` row (join table carrying the child order). -/
structure FCRow where
  family : String
  child : String
  order : Nat
deriving DecidableEq

/-- The persistent store, as touched by the import command.  `personMedia`
is the `Person.media` many-to-many table as (person id, media id) pairs;
`importedFiles` is the set of file names present in the managed
`MEDIA_ROOT/imported` folder. -/
structure DB where
  places : List (String × PlaceRow)
  people : List (String × PersonRow)
  families : List (String × FamilyRow)
  events : List (String × EventRow)
  notes : List (String × NoteRow)
  media : List (String × MediaRow)
  familyChildren : List FCRow
  personMedia : List (String × String)
  importedFiles : List String
deriving DecidableEq

def DB.empty : DB := ⟨[], [], [], [], [], [], [], [], []⟩

/-! ## Parsed records (the dictionaries returned by `Command._parse_xml`) -/

structure PlaceRec where
  id : Option String
  name : String
deriving DecidableEq

structure PersonRec where
  handle : String
  id : Option String
  first_name : String
  last_name : String
  gender : String
  change : Int
  eventRefs : List String
  objRefs : List String
  noteRefs : List String
deriving DecidableEq

structure FamilyRec where
  handle : String
  id : Option String
  fatherHandle : Option String
  motherHandle : Option String
  childHandles : List String
  noteRefs : List String
deriving DecidableEq

structure EventRec where
  handle : String
  id : Option String
  type : String
  date : Option PyDate
  placeHandle : Option String
  description : String
  noteRefs : List String
deriving DecidableEq

structure NoteRec where
  handle : String
  id : Option String
  text : String
deriving DecidableEq

structure MediaFileRec where
  src : String
  mime : String
  description : String
deriving DecidableEq

structure MediaRec where
  handle : String
  id : Option String
  file : Option MediaFileRec
deriving DecidableEq

/-- The in-memory snapshot produced by the parse stage. -/
structure GrampsInput where
  places : List PlaceRec
  people : List PersonRec
  families : List FamilyRec
  events : List EventRec
  notes : List NoteRec
  media : List MediaRec
deriving DecidableEq

/-- Filesystem environment for media resolution: paths that exist and can
be copied, and the directory of the uploaded file. -/
structure Env where
  availablePaths : List String
  inputDir : String
deriving DecidableEq

/-- Python truthiness of an optional string id: `None` and `""` are falsy. -/
def truthy (o : Option String) : Option String :=
  match o with
  | none => none
  | some s => if s = "" then none else some s

/-! ## Handle maps

`_parse_xml` returns dictionaries keyed by handle and `_import_people`
overwrites the values with persisted model instances, so a handle lookup
resolves to the record last stored under that handle. -/

/-- `person_data['id'] or person_handle` (line 330): Python `or`, so a
missing or empty id falls back to the internal handle. -/
def personGid (r : PersonRec) : String :=
  match r.id with
  | none => r.handle
  | some s => if s = "" then r.handle else s

def personByHandle (recs : List PersonRec) (h : String) : Option PersonRec :=
  (recs.filter (fun r => r.handle = h)).getLast?

/-- `people.get(hlink)` after `_import_people`: the gramps id under which
the person at this handle was persisted. -/
def handlePid (recs : List PersonRec) (h : String) : Option String :=
  (personByHandle recs h).map personGid

/-- `event_handle_to_obj` (built in `_import_events`, only for events with a
truthy id): the persisted event's gramps id. -/
def eventIdByHandle (recs : List EventRec) (h : String) : Option String :=
  ((recs.filter (fun r => r.handle = h ∧ (truthy r.id).isSome)).getLast?).bind
    (fun r => truthy r.id)

def noteByHandle (recs : List NoteRec) (h : String) : Option NoteRec :=
  (recs.filter (fun r => r.handle = h)).getLast?

def familyByHandle (recs : List FamilyRec) (h : String) : Option FamilyRec :=
  (recs.filter (fun r => r.handle = h)).getLast?

def eventByHandle (recs : List EventRec) (h : String) : Option EventRec :=
  (recs.filter (fun r => r.handle = h)).getLast?

/-- `media_handle_to_obj` (built in `_import_media`, only for media with a
truthy id). -/
def mediaIdByHandle (recs : List MediaRec) (h : String) : Option String :=
  ((recs.filter (fun r => r.handle = h ∧ (truthy r.id).isSome)).getLast?).bind
    (fun r => truthy r.id)


/-! ## Stage 1: `_import_places` (lines 314-325)

No missing-id guard exists for places: `update_or_create(gramps_id=None)`
cannot match any row (the column is NOT NULL) and the subsequent create
raises `IntegrityError`, aborting the command — modelled as `none`. -/

def placesStep (t : List (String × PlaceRow)) (r : PlaceRec) :
    Option (List (String × PlaceRow)) :=
  match r.id with
  | none => none
  | some gid => some (updateOrCreate t gid (fun _ => ⟨r.name⟩) ⟨r.name⟩)

def placesFold (recs : List PlaceRec) (t : List (String × PlaceRow)) :
    Option (List (String × PlaceRow)) :=
  recs.foldlM placesStep t

def importPlaces (recs : List PlaceRec) (db : DB) : Option DB :=
  (placesFold recs db.places).map (fun t => { db with places := t })

/-! ## Stage 2: `_import_people` (lines 327-352)

`update_or_create` keyed by `personGid`; the defaults are the four
import-owned fields, so `birth_date`, `death_date` and `is_deceased` are
preserved on the update path and initialised on the create path. -/

def applyPersonDefaults (r : PersonRec) (row : PersonRow) : PersonRow :=
  { row with
    first_name := r.first_name
    last_name := r.last_name
    gender := r.gender
    gramps_last_updated := some r.change }

def newPersonRow (r : PersonRec) : PersonRow :=
  ⟨r.first_name, r.last_name, r.gender, some r.change, none, none, false⟩

def peopleStep (t : List (String × PersonRow)) (r : PersonRec) :
    List (String × PersonRow) :=
  updateOrCreate t (personGid r) (applyPersonDefaults r) (newPersonRow r)

def peopleFold (recs : List PersonRec) (t : List (String × PersonRow)) :
    List (String × PersonRow) :=
  recs.foldl peopleStep t

def importPeople (recs : List PersonRec) (db : DB) : DB :=
  { db with people := peopleFold recs db.people }

/-! ## Stage 3: `_import_families` (lines 354-392)

A falsy family id skips the record.  Parents resolve through the people
handle dictionary (an unresolved handle yields a null parent).  The
family's `FamilyChild` rows are deleted and recreated from the ordered
`childref` list; `enumerate` indexes every `childref` element, and a child
handle absent from the people dictionary is dropped (its index is consumed).
Creating a duplicate `(family, child)` pair violates the model's
`unique_together` and raises, aborting the command — modelled as `none`. -/

/-- Families table together with the `FamilyChild` rows. -/
structure FamState where
  families : List (String × FamilyRow)
  children : List FCRow
deriving DecidableEq

def famChildStep (gid : String) (people : List PersonRec)
    (s : FamState) (ih : Nat × String) : Option FamState :=
  match handlePid people ih.2 with
  | none => some s
  | some pid =>
    if s.children.any (fun c => c.family = gid ∧ c.child = pid) then none
    else some { s with children := s.children ++ [⟨gid, pid, ih.1⟩] }

def famStep (people : List PersonRec) (s : FamState) (r : FamilyRec) :
    Option FamState :=
  match truthy r.id with
  | none => some s
  | some gid =>
    let father := r.fatherHandle.bind (handlePid people)
    let mother := r.motherHandle.bind (handlePid people)
    let s : FamState :=
      { families := updateOrCreate s.families gid (fun _ => ⟨father, mother⟩)
          ⟨father, mother⟩
        children := s.children.filter (fun c => ¬ c.family = gid) }
    r.childHandles.enum.foldlM (famChildStep gid people) s

def famFold (recs : List FamilyRec) (people : List PersonRec)
    (s : FamState) : Option FamState :=
  recs.foldlM (famStep people) s

def importFamilies (recs : List FamilyRec) (people : List PersonRec)
    (db : DB) : Option DB :=
  (famFold recs people ⟨db.families, db.familyChildren⟩).map
    (fun s => { db with families := s.families, familyChildren := s.children })

/-! ## Stage 4: `_import_events` (lines 394-436)

Phase A upserts each event with a truthy id; the defaults cover type, date,
place and description, so the `person` and `family` foreign keys are
preserved on the update path.  The place foreign key resolves the `place`
hlink against the places dictionary, which is keyed by place *id* (so it
resolves only when the hlink coincides with a place id).  Phase B walks the
person event references and sets the event's person when different. -/

def eventPlaceFk (places : List PlaceRec) (h? : Option String) : Option String :=
  match h? with
  | none => none
  | some h =>
    if h = "" then none
    else if places.any (fun p => p.id = some h) then some h else none

def applyEventDefaults (places : List PlaceRec) (r : EventRec)
    (row : EventRow) : EventRow :=
  { row with
    type := r.type
    date := r.date
    place := eventPlaceFk places r.placeHandle
    description := r.description }

def newEventRow (places : List PlaceRec) (r : EventRec) : EventRow :=
  ⟨r.type, r.date, eventPlaceFk places r.placeHandle, r.description, none, none⟩

def eventsUpsertStep (places : List PlaceRec) (t : List (String × EventRow))
    (r : EventRec) : List (String × EventRow) :=
  match truthy r.id with
  | none => t
  | some gid => updateOrCreate t gid (applyEventDefaults places r) (newEventRow places r)

def eventsLinkStep (recs : List EventRec) (pid : String)
    (t : List (String × EventRow)) (hlink : String) : List (String × EventRow) :=
  match eventIdByHandle recs hlink with
  | none => t
  | some eid => updateRow t eid (fun row => { row with person := some pid })

def eventsFold (recs : List EventRec) (places : List PlaceRec)
    (t : List (String × EventRow)) : List (String × EventRow) :=
  recs.foldl (eventsUpsertStep places) t

def eventsLinkFold (recs : List EventRec) (people : List PersonRec)
    (t : List (String × EventRow)) : List (String × EventRow) :=
  people.foldl (fun t p => p.eventRefs.foldl (eventsLinkStep recs (personGid p)) t) t

def importEvents (recs : List EventRec) (people : List PersonRec)
    (places : List PlaceRec) (db : DB) : DB :=
  { db with events := eventsLinkFold recs people (eventsFold recs places db.events) }

/-! ## Stage 5: `_import_notes` (lines 438-461) -/

def notesStep (t : List (String × NoteRow)) (r : NoteRec) :
    List (String × NoteRow) :=
  match truthy r.id with
  | none => t
  | some gid =>
    updateOrCreate t gid (fun row => { row with text := r.text })
      ⟨r.text, none, none, none⟩

def notesFold (recs : List NoteRec) (t : List (String × NoteRow)) :
    List (String × NoteRow) :=
  recs.foldl notesStep t

def importNotes (recs : List NoteRec) (db : DB) : DB :=
  { db with notes := notesFold recs db.notes }

/-! ## Stage 6: `_associate_notes` (lines 639-672)

The note/family/event dictionaries hold persisted model instances only for
records with a truthy id; for the rest they still hold raw XML elements
(`_import_notes` etc. overwrite only the entries they persist).  Touching
such an entry (`note_obj.person` on an element, or saving an element
assigned to a foreign key) raises, aborting the command — modelled as
`none`.  A note hlink absent from the dictionary is skipped. -/

def noteRefPersonStep (notes : List NoteRec) (pid : String)
    (t : List (String × NoteRow)) (h : String) : Option (List (String × NoteRow)) :=
  match noteByHandle notes h with
  | none => some t
  | some nrec =>
    match truthy nrec.id with
    | none => none
    | some nid => some (updateRow t nid (fun row => { row with person := some pid }))

def noteRefFamilyStep (notes : List NoteRec) (fid? : Option String)
    (t : List (String × NoteRow)) (h : String) : Option (List (String × NoteRow)) :=
  match noteByHandle notes h with
  | none => some t
  | some nrec =>
    match truthy nrec.id with
    | none => none
    | some nid =>
      match fid? with
      | none => none
      | some fid => some (updateRow t nid (fun row => { row with family := some fid }))

def noteRefEventStep (notes : List NoteRec) (eid? : Option String)
    (t : List (String × NoteRow)) (h : String) : Option (List (String × NoteRow)) :=
  match noteByHandle notes h with
  | none => some t
  | some nrec =>
    match truthy nrec.id with
    | none => none
    | some nid =>
      match eid? with
      | none => none
      | some eid => some (updateRow t nid (fun row => { row with event := some eid }))

def assocNotesFold (input : GrampsInput) (t : List (String × NoteRow)) :
    Option (List (String × NoteRow)) := do
  let t ← input.people.foldlM
    (fun t p => p.noteRefs.foldlM (noteRefPersonStep input.notes (personGid p)) t) t
  let t ← input.families.foldlM
    (fun t f => f.noteRefs.foldlM (noteRefFamilyStep input.notes (truthy f.id)) t) t
  input.events.foldlM
    (fun t e => e.noteRefs.foldlM (noteRefEventStep input.notes (truthy e.id)) t) t

def associateNotes (input : GrampsInput) (db : DB) : Option DB :=
  (assocNotesFold input db.notes).map (fun t => { db with notes := t })

/-! ## Stage 7: `_import_media` (lines 463-565) -/

/-- `os.path.basename` on POSIX: the part after the last `/`. -/
def pyBasename (p : String) : String :=
  ((pySplit p '/').getLast?).getD ""

def lastIdxOf (cs : List Char) (c : Char) : Option Nat :=
  ((cs.enum.filter (fun ic => ic.2 = c)).getLast?).map (·.1)

/-- `os.path.splitext`: split at the last dot, unless every character
before it is a dot. -/
def splitExt (s : String) : String × String :=
  let cs := s.toList
  match lastIdxOf cs '.' with
  | none => (s, "")
  | some i =>
    if (cs.take i).any (fun c => ¬ c = '.') then (⟨cs.take i⟩, ⟨cs.drop i⟩)
    else (s, "")

def joinPath (d f : String) : String :=
  if d = "" then f else d ++ "/" ++ f

/-- The `possible_sources` search (lines 502-510): the recorded source
path, `BASE_DIR/media/<filename>`, then `<dir of uploaded file>/<filename>`;
the first truthy candidate that is an existing copyable file wins (a
candidate whose copy fails is logged and the next one is tried, which is
the same as it not being available). -/
def findSource (env : Env) (orig filename : String) : Option String :=
  ([orig, joinPath "media" filename, joinPath env.inputDir filename].filter
    (fun p => ¬ p = "" ∧ p ∈ env.availablePaths)).head?

/-- The duplicate-filename loop (lines 513-519): while the destination
exists, retry with `name_counter ext`.  Fuel-based; the import calls it
with more fuel than there are files in the folder. -/
def collisionLoop (fs : List String) (name ext : String) :
    String → Nat → Nat → String
  | filename, _, 0 => filename
  | filename, counter, fuel + 1 =>
    if filename ∈ fs then
      collisionLoop fs name ext (name ++ "_" ++ toString counter ++ ext) (counter + 1) fuel
    else filename

/-- Media table together with the listing of `MEDIA_ROOT/imported`. -/
structure MediaState where
  media : List (String × MediaRow)
  fs : List String
deriving DecidableEq

def mediaUpsert (s : MediaState) (gid : String) (row : MediaRow) : MediaState :=
  { s with media := updateOrCreate s.media gid (fun _ => row) row }

/-- One media record (lines 474-553): skip on falsy id; an absent `file`
element stores empty path/mime/description; if `imported/<filename>`
already exists the stored path reuses it without copying; otherwise the
first locatable source is copied (the collision loop runs only when the
destination does not exist) and a missing source falls back to the
original recorded path. -/
def mediaStep (env : Env) (s : MediaState) (r : MediaRec) : MediaState :=
  match truthy r.id with
  | none => s
  | some gid =>
    match r.file with
    | none => mediaUpsert s gid ⟨"", "", ""⟩
    | some f =>
      let filename := pyBasename f.src
      if filename ∈ s.fs then
        mediaUpsert s gid ⟨"imported/" ++ filename, f.mime, f.description⟩
      else
        match findSource env f.src filename with
        | some _ =>
          let se := splitExt filename
          let finalName := collisionLoop s.fs se.1 se.2 filename 1 (s.fs.length + 1)
          mediaUpsert { s with fs := s.fs ++ [finalName] } gid
            ⟨"imported/" ++ finalName, f.mime, f.description⟩
        | none => mediaUpsert s gid ⟨f.src, f.mime, f.description⟩

def mediaFold (recs : List MediaRec) (env : Env) (s : MediaState) : MediaState :=
  recs.foldl (mediaStep env) s

/-- Person-media association (lines 555-565): for each person with a
nonempty `objref` list, clear the person's media set and re-add the
resolvable references in order (`add` ignores duplicates). -/
def pmStep (media : List MediaRec) (pm : List (String × String))
    (p : PersonRec) : List (String × String) :=
  if p.objRefs.isEmpty then pm
  else
    let pid := personGid p
    let pm := pm.filter (fun x => ¬ x.1 = pid)
    p.objRefs.foldl (fun pm h =>
      match mediaIdByHandle media h with
      | none => pm
      | some mid => if (pid, mid) ∈ pm then pm else pm ++ [(pid, mid)]) pm

def pmFold (media : List MediaRec) (people : List PersonRec)
    (pm : List (String × String)) : List (String × String) :=
  people.foldl (pmStep media) pm

def importMedia (recs : List MediaRec) (people : List PersonRec)
    (env : Env) (db : DB) : DB :=
  let s := mediaFold recs env ⟨db.media, db.importedFiles⟩
  { db with
    media := s.media
    importedFiles := s.fs
    personMedia := pmFold recs people db.personMedia }

/-! ## Stage 8: `_update_dates` (lines 674-698)

One sweep over all events; a person already updated in this run is skipped
(`updated_people`), so at most the first change-requiring event of each
person is applied per run. -/

def evNeeds (row : PersonRow) (ev : EventRow) : Bool :=
  if pyLower ev.type = "birth" ∧ ev.date.isSome then
    decide (row.birth_date ≠ ev.date)
  else if pyLower ev.type = "death" then
    decide ((ev.date.isSome ∧ row.death_date ≠ ev.date) ∨ row.is_deceased = false)
  else false

def evApply (row : PersonRow) (ev : EventRow) : PersonRow :=
  if pyLower ev.type = "birth" ∧ ev.date.isSome then
    if row.birth_date ≠ ev.date then { row with birth_date := ev.date } else row
  else if pyLower ev.type = "death" then
    let row1 :=
      if ev.date.isSome ∧ row.death_date ≠ ev.date then
        { row with death_date := ev.date }
      else row
    if row1.is_deceased = false then { row1 with is_deceased := true } else row1
  else row

def sweep : List (String × EventRow) → List String →
    List (String × PersonRow) → List (String × PersonRow)
  | [], _, people => people
  | (_, ev) :: rest, updated, people =>
    match ev.person with
    | none => sweep rest updated people
    | some pid =>
      if pid ∈ updated then sweep rest updated people
      else
        match alook people pid with
        | none => sweep rest updated people
        | some row =>
          if evNeeds row ev then
            sweep rest (pid :: updated) (updateRow people pid (fun _ => evApply row ev))
          else sweep rest updated people

def updateDates (db : DB) : DB :=
  { db with people := sweep db.events [] db.people }

/-! ## The whole pipeline (`Command.handle`, lines 26-87, without the
optional `--import-media` pass) -/

def importOnce (env : Env) (input : GrampsInput) (db : DB) : Option DB := do
  let db ← importPlaces input.places db
  let db := importPeople input.people db
  let db ← importFamilies input.families input.people db
  let db := importEvents input.events input.people input.places db
  let db := importNotes input.notes db
  let db ← associateNotes input db
  let db := importMedia input.media input.people env db
  some (updateDates db)

/-! ## Parse-stage side effects (`Command._parse_xml`, lines 89-120 and 308-312)

`_parse_xml` performs no ORM call, but before parsing it ensures
`BASE_DIR/media` exists (line 95) and, when the input opens as a tar.gz
package, extracts members into a scratch directory and copies every bundled
image into the shared media root (lines 97-117); the scratch directory is
removed in the `finally` block. -/

structure TarMember where
  name : String
  isFile : Bool
deriving DecidableEq

inductive ImportFile
  | plainDoc
  | archive (members : List TarMember)
deriving DecidableEq

def imageExts : List String :=
  [".jpg", ".jpeg", ".png", ".gif", ".bmp", ".tiff", ".webp"]

def isImageName (n : String) : Bool :=
  imageExts.any (fun e => strEndsWith (pyLower n) e)

/-- Filesystem/database effects the parse stage can perform.  `dbWrite`
exists in the vocabulary so "no database write" is expressible; the parse
stage never emits it. -/
inductive Effect
  | dbWrite
  | mkdirMediaRoot
  | extractToScratch (name : String)
  | copyToMediaRoot (filename : String)
  | removeScratch
deriving DecidableEq

def Effect.isDbWrite : Effect → Bool
  | .dbWrite => true
  | _ => false

/-- Whether an effect touches anything outside the parse stage's own
scratch directory. -/
def Effect.outsideScratch : Effect → Bool
  | .dbWrite => true
  | .mkdirMediaRoot => true
  | .copyToMediaRoot _ => true
  | .extractToScratch _ => false
  | .removeScratch => false

def memberEffects (m : TarMember) : List Effect :=
  if strEndsWith m.name ".gramps" then [.extractToScratch m.name]
  else if m.isFile ∧ isImageName m.name then
    [.extractToScratch m.name, .copyToMediaRoot (pyBasename m.name)]
  else []

def parseXmlEffects : ImportFile → List Effect
  | .plainDoc => [.mkdirMediaRoot]
  | .archive ms =>
    .mkdirMediaRoot :: (ms.map memberEffects).flatten ++ [.removeScratch]

/-- The image members a package input copies into the media root. -/
def imageMembers : ImportFile → List TarMember
  | .plainDoc => []
  | .archive ms =>
    ms.filter (fun m => ¬ strEndsWith m.name ".gramps" ∧ m.isFile ∧ isImageName m.name)

/-! ## Lemmas about the table primitives -/

@[simp] theorem alook_nil {β : Type} (k : String) :
    alook ([] : List (String × β)) k = none := rfl

theorem alook_cons {β : Type} (k' : String) (v : β) (t : List (String × β))
    (k : String) :
    alook ((k', v) :: t) k = if k' = k then some v else alook t k := rfl

@[simp] theorem keysOf_nil {β : Type} :
    keysOf ([] : List (String × β)) = [] := rfl

@[simp] theorem keysOf_cons {β : Type} (p : String × β) (t : List (String × β)) :
    keysOf (p :: t) = p.1 :: keysOf t := rfl

theorem alook_updateOrCreate_self {β : Type} (t : List (String × β)) (k : String)
    (u : β → β) (n : β) :
    alook (updateOrCreate t k u n) k =
      some (match alook t k with | some v => u v | none => n) := by
  induction t with
  | nil => simp [alook, updateOrCreate]
  | cons p rest ih =>
    obtain ⟨k', v⟩ := p
    by_cases h : k' = k <;> simp [alook_cons, updateOrCreate, h, ih]

theorem alook_updateOrCreate_ne {β : Type} (t : List (String × β)) (k k' : String)
    (u : β → β) (n : β) (h : k' ≠ k) :
    alook (updateOrCreate t k u n) k' = alook t k' := by
  have h' : ¬ k = k' := fun hh => h hh.symm
  induction t with
  | nil => simp [alook_cons, updateOrCreate, h']
  | cons p rest ih =>
    obtain ⟨k₀, v⟩ := p
    by_cases h0 : k₀ = k
    · subst h0
      simp [alook_cons, updateOrCreate, h']
    · simp [alook_cons, updateOrCreate, h0, ih]

theorem alook_updateRow_self {β : Type} (t : List (String × β)) (k : String)
    (f : β → β) :
    alook (updateRow t k f) k = (alook t k).map f := by
  induction t with
  | nil => simp [updateRow]
  | cons p rest ih =>
    obtain ⟨k', v⟩ := p
    by_cases h : k' = k <;> simp [alook_cons, updateRow, h, ih]

theorem alook_updateRow_ne {β : Type} (t : List (String × β)) (k k' : String)
    (f : β → β) (h : k' ≠ k) :
    alook (updateRow t k f) k' = alook t k' := by
  have h' : ¬ k = k' := fun hh => h hh.symm
  induction t with
  | nil => simp [updateRow]
  | cons p rest ih =>
    obtain ⟨k₀, v⟩ := p
    by_cases h0 : k₀ = k
    · subst h0
      simp [alook_cons, updateRow, h']
    · simp [alook_cons, updateRow, h0, ih]

theorem keysOf_updateRow {β : Type} (t : List (String × β)) (k : String)
    (f : β → β) : keysOf (updateRow t k f) = keysOf t := by
  induction t with
  | nil => rfl
  | cons p rest ih =>
    obtain ⟨k', v⟩ := p
    by_cases h : k' = k <;> simp [updateRow, h, ih]

theorem mem_keysOf_iff_isSome {β : Type} (t : List (String × β)) (k : String) :
    k ∈ keysOf t ↔ (alook t k).isSome := by
  induction t with
  | nil => simp
  | cons p rest ih =>
    obtain ⟨k', v⟩ := p
    by_cases h : k' = k
    · subst h
      simp [alook_cons]
    · have h' : ¬ k = k' := fun hh => h hh.symm
      simp [alook_cons, h, h', ih]

theorem keysOf_updateOrCreate {β : Type} (t : List (String × β)) (k : String)
    (u : β → β) (n : β) :
    keysOf (updateOrCreate t k u n) =
      if k ∈ keysOf t then keysOf t else keysOf t ++ [k] := by
  induction t with
  | nil => simp [keysOf, updateOrCreate]
  | cons p rest ih =>
    obtain ⟨k₀, v⟩ := p
    by_cases h : k₀ = k
    · subst h
      simp [updateOrCreate]
    · have h' : ¬ k = k₀ := fun hh => h hh.symm
      by_cases hm : k ∈ keysOf rest <;>
        simp [updateOrCreate, h, h', hm, ih]


/-! ## Claim C10 -/

/-- C10: for a person whose `gramps_last_updated` is null (never
synchronized), `has_local_modifications` returns true; for a person whose
`gramps_last_updated` is set but whose `updated_at` is null, it returns
false. -/
theorem C10_unsynchronized_defaults :
    (∀ u : Option Int, has_local_modifications u none = true) ∧
    (∀ g : Int, has_local_modifications none (some g) = false) :=
  ⟨fun _ => rfl, fun _ => rfl⟩

/-! ## Claim C4 -/

/-- C4 counterexample: the claim says any gender text whose upper-casing is
not one of the codes `M`/`F`/`U` is stored as `"U"`; the code stores the
bare upper-cased text, so `"x"` is stored as `"X"`, which is none of the
three codes. -/
theorem C4_counterexample :
    parseGender (some "x") = "X" ∧
    ¬ (parseGender (some "x") = "M" ∨ parseGender (some "x") = "F" ∨
       parseGender (some "x") = "U") := by
  constructor
  · decide
  · decide

/-- C4 amended: the stored gender is the upper-cased, whitespace-stripped
source text, with no restriction to the three known codes; only an absent
or empty gender element yields the default `"U"`. -/
theorem C4_gender_uppercase_unrestricted :
    parseGender none = "U" ∧ parseGender (some "") = "U" ∧
    ∀ t : String, t ≠ "" → parseGender (some t) = pyUpper (pyStrip t) := by
  refine ⟨rfl, by decide, ?_⟩
  intro t ht
  simp [parseGender, ht]

/-- Witness for `C4_gender_uppercase_unrestricted` at the concrete gender
text `" male "`. -/
theorem C4_witness : parseGender (some " male ") = pyUpper (pyStrip " male ") :=
  C4_gender_uppercase_unrestricted.2.2 " male " (by decide)

/-! ## Claim C8 -/

/-- C8 counterexample: parsing a package input that bundles an image
performs filesystem writes outside the parse stage's scratch directory —
it ensures the shared media root exists and copies the bundled image into
it — so the parse stage is not free of side effects outside its scratch
area. -/
theorem C8_counterexample :
    (parseXmlEffects (.archive [⟨"img/photo.jpg", true⟩])).filter
        Effect.outsideScratch =
      [.mkdirMediaRoot, .copyToMediaRoot "photo.jpg"] ∧
    (parseXmlEffects (.archive [⟨"img/photo.jpg", true⟩])).filter
        Effect.outsideScratch ≠ [] := by
  constructor
  · decide
  · decide

theorem memberEffects_no_db (m : TarMember) :
    (memberEffects m).all (fun e => ! e.isDbWrite) = true := by
  unfold memberEffects
  split
  · rfl
  · split
    · rfl
    · rfl

theorem flatten_memberEffects_no_db (ms : List TarMember) :
    ((ms.map memberEffects).flatten).all (fun e => ! e.isDbWrite) = true := by
  induction ms with
  | nil => rfl
  | cons m rest ih =>
    simp only [List.map_cons, List.flatten_cons, List.all_append]
    rw [memberEffects_no_db, ih]
    rfl

theorem filter_memberEffects_outside (ms : List TarMember) :
    (((ms.map memberEffects).flatten).filter Effect.outsideScratch) =
      (ms.filter
        (fun m => ¬ strEndsWith m.name ".gramps" ∧ m.isFile ∧ isImageName m.name)).map
        (fun m => Effect.copyToMediaRoot (pyBasename m.name)) := by
  induction ms with
  | nil => rfl
  | cons m rest ih =>
    simp only [List.map_cons, List.flatten_cons, List.filter_append, List.filter_cons]
    by_cases h1 : strEndsWith m.name ".gramps"
    · simp [memberEffects, h1, Effect.outsideScratch, ih]
    · by_cases h2 : (m.isFile : Prop) ∧ isImageName m.name
      · simp [memberEffects, h1, h2, Effect.outsideScratch, ih]
      · simp [memberEffects, h1, h2, Effect.outsideScratch, ih]

/-- C8 amended: the parse stage performs no database write, but its
filesystem effects outside its own scratch directory are exactly: ensuring
the shared media root directory exists and, for a package (tar.gz) input,
best-effort copying every bundled image file into that media root. -/
theorem C8_parse_effects (i : ImportFile) :
    (parseXmlEffects i).all (fun e => ! e.isDbWrite) = true ∧
    (parseXmlEffects i).filter Effect.outsideScratch =
      Effect.mkdirMediaRoot ::
        (imageMembers i).map (fun m => Effect.copyToMediaRoot (pyBasename m.name)) := by
  cases i with
  | plainDoc => exact ⟨rfl, rfl⟩
  | archive ms =>
    constructor
    · simp only [parseXmlEffects, List.all_cons, List.all_append]
      rw [flatten_memberEffects_no_db]
      rfl
    · simp only [parseXmlEffects, imageMembers, List.filter_cons, List.filter_append]
      rw [filter_memberEffects_outside]
      simp [Effect.outsideScratch]

/-! ## Claim C5 -/

theorem foldl_digits_lt (cs : List Char) :
    ∀ a : Nat, (∀ x ∈ cs, x.isDigit = true) →
      cs.foldl (fun n c => n * 10 + (c.toNat - 48)) a < (a + 1) * 10 ^ cs.length := by
  induction cs with
  | nil => intro a _; simpa using Nat.lt_succ_self a
  | cons c rest ih =>
    intro a h
    rw [List.forall_mem_cons] at h
    have h9 : c.toNat - 48 ≤ 9 := by
      have hc : 48 ≤ c.toNat ∧ c.toNat ≤ 57 := by
        simpa [Char.isDigit] using h.1
      omega
    have step := ih (a * 10 + (c.toNat - 48)) h.2
    have hle : (a * 10 + (c.toNat - 48) + 1) * 10 ^ rest.length ≤
        (a + 1) * 10 ^ (rest.length + 1) := by
      have h1 : a * 10 + (c.toNat - 48) + 1 ≤ (a + 1) * 10 := by omega
      calc (a * 10 + (c.toNat - 48) + 1) * 10 ^ rest.length
          ≤ ((a + 1) * 10) * 10 ^ rest.length := Nat.mul_le_mul_right _ h1
        _ = (a + 1) * 10 ^ (rest.length + 1) := by ring
    simpa [List.foldl_cons, List.length_cons] using lt_of_lt_of_le step hle

theorem digitsToNat_le_of_len4 (s : String) (hlen : s.length = 4)
    (hd : ∀ x ∈ s.toList, x.isDigit = true) : digitsToNat s ≤ 9999 := by
  have hb := foldl_digits_lt s.toList 0 hd
  have hl : s.toList.length = 4 := hlen
  rw [hl] at hb
  have : digitsToNat s < 10000 := by simpa [digitsToNat] using hb
  omega

theorem one_le_daysInMonth (y m : Nat) : 1 ≤ daysInMonth y m := by
  unfold daysInMonth
  split
  · split <;> omega
  · split <;> omega

/-- C5: event date parsing maps a 4-digit year to January 1 of that year, a
`YYYY-MM` value to the first of that month, a full 10-character ISO date to
that exact date, and any other shape (absent value, empty string,
`"not-a-date"`) to no date; it is a total function, so no error can
escape. -/
theorem C5_date_parsing :
    parseEventDate none = none ∧
    parseEventDate (some "") = none ∧
    parseEventDate (some "not-a-date") = none ∧
    (∀ s : String, s.length = 4 → isDigitStr s = true → 1 ≤ digitsToNat s →
      parseEventDate (some s) = some ⟨digitsToNat s, 1, 1⟩) ∧
    (∀ s y m : String, s.length = 7 → countChar s '-' = 1 →
      pySplit s '-' = [y, m] → isDigitStr y = true → isDigitStr m = true →
      y.length = 4 → 1 ≤ digitsToNat y → 1 ≤ digitsToNat m →
      digitsToNat m ≤ 12 →
      parseEventDate (some s) = some ⟨digitsToNat y, digitsToNat m, 1⟩) ∧
    (∀ (s : String) (d : PyDate), s.length = 10 → countChar s '-' = 2 →
      fromIsoFormat10 s = some d → parseEventDate (some s) = some d) := by
  refine ⟨rfl, by decide, by decide, ?_, ?_, ?_⟩
  · intro s h4 hd h1
    have hne : ¬ s = "" := by
      intro he
      rw [he] at h4
      simp at h4
    have hall : ∀ x ∈ s.toList, x.isDigit = true := by
      simp [isDigitStr] at hd
      exact hd.2
    have hle : digitsToNat s ≤ 9999 := digitsToNat_le_of_len4 s h4 hall
    simp [parseEventDate, hne, h4, hd, mkDate?, daysInMonth, h1, hle]
  · intro s y m h7 hcnt hsplit hy hm hylen h1y h1m h12m
    have hne : ¬ s = "" := by
      intro he
      rw [he] at h7
      simp at h7
    have hally : ∀ x ∈ y.toList, x.isDigit = true := by
      simp [isDigitStr] at hy
      exact hy.2
    have hley : digitsToNat y ≤ 9999 := digitsToNat_le_of_len4 y hylen hally
    have hday : 1 ≤ daysInMonth (digitsToNat y) (digitsToNat m) :=
      one_le_daysInMonth _ _
    simp [parseEventDate, hne, h7, hcnt, hsplit, hy, hm, mkDate?, h1y, hley,
      h1m, h12m, hday]
  · intro s d h10 hcnt hiso
    have hne : ¬ s = "" := by
      intro he
      rw [he] at h10
      simp at h10
    simp [parseEventDate, hne, h10, hcnt, hiso]

/-- Witness for `C5_date_parsing` at the specification's own examples. -/
theorem C5_witness :
    parseEventDate (some "1990") = some ⟨1990, 1, 1⟩ ∧
    parseEventDate (some "1990-05") = some ⟨1990, 5, 1⟩ ∧
    parseEventDate (some "1990-05-12") = some ⟨1990, 5, 12⟩ := by
  refine ⟨?_, ?_, ?_⟩
  · rw [C5_date_parsing.2.2.2.1 "1990" (by decide) (by decide) (by decide)]
    decide
  · rw [C5_date_parsing.2.2.2.2.1 "1990-05" "1990" "05" (by decide) (by decide)
      (by decide) (by decide) (by decide) (by decide) (by decide) (by decide)
      (by decide)]
    decide
  · exact C5_date_parsing.2.2.2.2.2 "1990-05-12" ⟨1990, 5, 12⟩ (by decide)
      (by decide) (by decide)


/-! ## Claim C9 -/

/-- The first event in sweep order that belongs to `pid` and would change
the person row `row`. -/
def firstNeeding (evs : List (String × EventRow)) (pid : String)
    (row : PersonRow) : Option EventRow :=
  match evs with
  | [] => none
  | (_, ev) :: rest =>
    if ev.person = some pid ∧ evNeeds row ev = true then some ev
    else firstNeeding rest pid row


theorem sweep_cons_none (k : String) (ev : EventRow)
    (rest : List (String × EventRow)) (updated : List String)
    (people : List (String × PersonRow)) (h : ev.person = none) :
    sweep ((k, ev) :: rest) updated people = sweep rest updated people := by
  simp [sweep, h]

theorem sweep_cons_mem (k : String) (ev : EventRow) (q : String)
    (rest : List (String × EventRow)) (updated : List String)
    (people : List (String × PersonRow)) (h : ev.person = some q)
    (hq : q ∈ updated) :
    sweep ((k, ev) :: rest) updated people = sweep rest updated people := by
  simp [sweep, h, hq]

theorem sweep_cons_nolook (k : String) (ev : EventRow) (q : String)
    (rest : List (String × EventRow)) (updated : List String)
    (people : List (String × PersonRow)) (h : ev.person = some q)
    (hq : q ∉ updated) (hl : alook people q = none) :
    sweep ((k, ev) :: rest) updated people = sweep rest updated people := by
  simp [sweep, h, hq, hl]

theorem sweep_cons_needs (k : String) (ev : EventRow) (q : String)
    (row : PersonRow) (rest : List (String × EventRow)) (updated : List String)
    (people : List (String × PersonRow)) (h : ev.person = some q)
    (hq : q ∉ updated) (hl : alook people q = some row)
    (hn : evNeeds row ev = true) :
    sweep ((k, ev) :: rest) updated people =
      sweep rest (q :: updated) (updateRow people q (fun _ => evApply row ev)) := by
  simp [sweep, h, hq, hl, hn]

theorem sweep_cons_noneeds (k : String) (ev : EventRow) (q : String)
    (row : PersonRow) (rest : List (String × EventRow)) (updated : List String)
    (people : List (String × PersonRow)) (h : ev.person = some q)
    (hq : q ∉ updated) (hl : alook people q = some row)
    (hn : ¬ evNeeds row ev = true) :
    sweep ((k, ev) :: rest) updated people = sweep rest updated people := by
  simp [sweep, h, hq, hl, hn]

theorem sweep_alook_of_mem (evs : List (String × EventRow)) :
    ∀ (updated : List String) (people : List (String × PersonRow)) (pid : String),
      pid ∈ updated →
      alook (sweep evs updated people) pid = alook people pid := by
  induction evs with
  | nil => intro _ _ _ _; rfl
  | cons e rest ih =>
    intro updated people pid hmem
    obtain ⟨k, ev⟩ := e
    cases hp : ev.person with
    | none =>
      rw [sweep_cons_none k ev rest updated people hp]
      exact ih _ _ _ hmem
    | some q =>
      by_cases hq : q ∈ updated
      · rw [sweep_cons_mem k ev q rest updated people hp hq]
        exact ih _ _ _ hmem
      · cases hlq : alook people q with
        | none =>
          rw [sweep_cons_nolook k ev q rest updated people hp hq hlq]
          exact ih _ _ _ hmem
        | some row =>
          by_cases hn : evNeeds row ev = true
          · rw [sweep_cons_needs k ev q row rest updated people hp hq hlq hn]
            rw [ih (q :: updated) _ pid (List.mem_cons_of_mem _ hmem)]
            exact alook_updateRow_ne _ _ _ _ (fun h => hq (h ▸ hmem))
          · rw [sweep_cons_noneeds k ev q row rest updated people hp hq hlq hn]
            exact ih _ _ _ hmem

theorem sweep_alook_of_notmem (evs : List (String × EventRow)) :
    ∀ (updated : List String) (people : List (String × PersonRow)) (pid : String),
      pid ∉ updated →
      alook (sweep evs updated people) pid =
        match alook people pid with
        | none => none
        | some row =>
          some (match firstNeeding evs pid row with
                | none => row
                | some ev => evApply row ev) := by
  induction evs with
  | nil =>
    intro updated people pid _
    simp only [sweep, firstNeeding]
    cases alook people pid <;> rfl
  | cons e rest ih =>
    intro updated people pid hpid
    obtain ⟨k, ev⟩ := e
    cases hp : ev.person with
    | none =>
      rw [sweep_cons_none k ev rest updated people hp]
      rw [ih _ _ _ hpid]
      cases halook : alook people pid
      · rfl
      · simp [firstNeeding, hp]
    | some q =>
      by_cases hq : q ∈ updated
      · have hne : ¬ q = pid := fun h => hpid (h ▸ hq)
        rw [sweep_cons_mem k ev q rest updated people hp hq]
        rw [ih _ _ _ hpid]
        cases halook : alook people pid
        · rfl
        · simp [firstNeeding, hp, hne]
      · cases hlq : alook people q with
        | none =>
          rw [sweep_cons_nolook k ev q rest updated people hp hq hlq]
          rw [ih _ _ _ hpid]
          by_cases hqp : q = pid
          · subst hqp
            rw [hlq]
          · cases halook : alook people pid
            · rfl
            · simp [firstNeeding, hp, hqp]
        | some row =>
          by_cases hn : evNeeds row ev = true
          · rw [sweep_cons_needs k ev q row rest updated people hp hq hlq hn]
            by_cases hqp : q = pid
            · subst hqp
              rw [sweep_alook_of_mem rest (q :: updated) _ q (List.mem_cons_self q _)]
              rw [alook_updateRow_self, hlq]
              simp [firstNeeding, hp, hn]
            · have hpid' : pid ∉ q :: updated := by
                intro h
                rcases List.mem_cons.mp h with h1 | h2
                · exact hqp h1.symm
                · exact hpid h2
              rw [ih _ _ _ hpid']
              rw [alook_updateRow_ne _ q pid _ (fun h => hqp h.symm)]
              cases halook : alook people pid
              · rfl
              · simp [firstNeeding, hp, hqp]
          · rw [sweep_cons_noneeds k ev q row rest updated people hp hq hlq hn]
            rw [ih _ _ _ hpid]
            by_cases hqp : q = pid
            · subst hqp
              rw [hlq]
              simp [firstNeeding, hp, hn]
            · cases halook : alook people pid
              · rfl
              · simp [firstNeeding, hp, hqp]

/-- Database used in the C9 and C1 counterexamples: one person with a birth
event appearing before a death event in table order. -/
def c9db : DB :=
  { places := []
    people := [("I1", ⟨"A", "B", "M", some 0, none, none, false⟩)]
    families := []
    events := [("E1", ⟨"birth", some ⟨1990, 1, 1⟩, none, "", some "I1", none⟩),
               ("E2", ⟨"death", some ⟨2000, 1, 1⟩, none, "", some "I1", none⟩)]
    notes := []
    media := []
    familyChildren := []
    personMedia := []
    importedFiles := [] }

/-- C9 counterexample: person `I1` is linked to a death event, yet after
`_update_dates` the deceased flag is still false — the dated birth event is
processed first, changes the birth date, marks the person as updated, and
the death event is then skipped by the `updated_people` guard. -/
theorem C9_counterexample :
    (c9db.events.any (fun e => e.2.type = "death" ∧ e.2.person = some "I1") = true) ∧
    ((alook (updateDates c9db).people "I1").map PersonRow.is_deceased = some false) := by
  constructor
  · decide
  · decide

/-- C9 (amended): the derived-field sweep applies, per person, exactly the
first event in sweep order that would change that person's row; all later
events of that person are skipped in the same run, so a death event does
not set the deceased flag when an earlier changing event of the same person
precedes it.  When the applied event is a death event the deceased flag is
set (even if undated); when it is a dated birth event the birth date is set
to the event's date.  A person none of whose events require a change is not
written at all. -/
theorem C9_first_changing_event_only :
    (∀ (db : DB) (pid : String),
      alook (updateDates db).people pid =
        match alook db.people pid with
        | none => none
        | some row =>
          some (match firstNeeding db.events pid row with
                | none => row
                | some ev => evApply row ev)) ∧
    (∀ (row : PersonRow) (ev : EventRow), pyLower ev.type = "death" →
      (evApply row ev).is_deceased = true) ∧
    (∀ (row : PersonRow) (ev : EventRow), pyLower ev.type = "birth" →
      ev.date.isSome = true → (evApply row ev).birth_date = ev.date) := by
  refine ⟨?_, ?_, ?_⟩
  · intro db pid
    exact sweep_alook_of_notmem db.events [] db.people pid (List.not_mem_nil pid)
  · intro row ev h
    simp only [evApply, h]
    split
    · rename_i hcond
      exact absurd hcond (by simp)
    · split
      · split
        · split <;> simp_all
        · split <;> simp_all
      · rename_i hcond
        exact absurd (by simp) hcond
  · intro row ev h hdate
    simp only [evApply, h, hdate]
    split
    · split <;> simp_all
    · rename_i hcond
      exact absurd (by simp) hcond

/-- Witness for `C9_first_changing_event_only`: the characterization
evaluated on the concrete database, and the death/birth conjuncts applied
to concrete rows and events. -/
theorem C9_witness :
    ((evApply ⟨"A", "B", "M", some 0, none, none, false⟩
        ⟨"death", some ⟨1950, 2, 3⟩, none, "", some "I1", none⟩).is_deceased = true) ∧
    ((evApply ⟨"A", "B", "M", some 0, none, none, false⟩
        ⟨"birth", some ⟨1910, 2, 3⟩, none, "", some "I1", none⟩).birth_date =
      some ⟨1910, 2, 3⟩) := by
  constructor
  · exact C9_first_changing_event_only.2.1 _ _ (by decide)
  · exact C9_first_changing_event_only.2.2 _ _ (by decide) (by decide)

/-! ## Generic update-or-create folds

Every reconciliation stage updates one table by folding `update_or_create`
over the parsed records; `upsertMany` abstracts that shape.  The
characterization lemmas assume that the defaults fully determine the
import-owned part of the row (`Hdet`), preserve the projection `proj` of
the rest (`Hpres`), and that creating a row equals applying the defaults
to a fixed fresh row (`Hnew`). -/

def upsertMany {r b : Type} (key? : r → Option String) (upd : r → b → b)
    (new : r → b) (t : List (String × b)) (recs : List r) : List (String × b) :=
  recs.foldl (fun t x =>
    match key? x with
    | none => t
    | some gid => updateOrCreate t gid (upd x) (new x)) t

/-- The last record in the batch that reconciles into key `k`. -/
def lastRecFor {r : Type} (key? : r → Option String) (recs : List r)
    (k : String) : Option r :=
  match recs with
  | [] => none
  | x :: rest =>
    match lastRecFor key? rest k with
    | some y => some y
    | none => if key? x = some k then some x else none

theorem alook_upsertMany {r b p : Type} (key? : r → Option String)
    (upd : r → b → b) (new : r → b) (proj : b → p) (dflt : b)
    (Hpres : ∀ x row, proj (upd x row) = proj row)
    (Hdet : ∀ x row row', proj row = proj row' → upd x row = upd x row')
    (Hnew : ∀ x, new x = upd x dflt) :
    ∀ (recs : List r) (t : List (String × b)) (k : String),
      alook (upsertMany key? upd new t recs) k =
        match lastRecFor key? recs k with
        | none => alook t k
        | some x => some (upd x ((alook t k).getD dflt)) := by
  intro recs
  induction recs with
  | nil => intro t k; rfl
  | cons x rest ih =>
    intro t k
    show alook (upsertMany key? upd new
      (match key? x with
       | none => t
       | some gid => updateOrCreate t gid (upd x) (new x)) rest) k = _
    cases hk : key? x with
    | none =>
      rw [ih]
      cases hlast : lastRecFor key? rest k <;> simp [lastRecFor, hlast, hk]
    | some gid =>
      by_cases hg : gid = k
      · subst hg
        rw [ih]
        cases hlast : lastRecFor key? rest gid with
        | none =>
          rw [alook_updateOrCreate_self]
          simp only [lastRecFor, hlast, hk]
          cases halook : alook t gid <;> simp [Hnew x]
        | some y =>
          rw [alook_updateOrCreate_self]
          simp only [lastRecFor, hlast]
          cases halook : alook t gid with
          | none =>
            simp only [Option.getD_some, Option.getD_none]
            refine congrArg some (Hdet y _ _ ?_)
            rw [Hnew x, Hpres]
          | some v =>
            simp only [Option.getD_some]
            exact congrArg some (Hdet y _ _ (Hpres x v))
      · have hne : ¬ k = gid := fun h => hg h.symm
        rw [ih, alook_updateOrCreate_ne t gid k _ _ hne]
        have hxk : ¬ key? x = some k := by
          rw [hk]
          intro h
          exact hg (Option.some.inj h)
        cases hlast : lastRecFor key? rest k <;> simp [lastRecFor, hlast, hxk]

theorem keys_upsertMany_of_mem {r b : Type} (key? : r → Option String)
    (upd : r → b → b) (new : r → b) :
    ∀ (recs : List r) (t : List (String × b)),
      (∀ x ∈ recs, ∀ gid, key? x = some gid → gid ∈ keysOf t) →
      keysOf (upsertMany key? upd new t recs) = keysOf t := by
  intro recs
  induction recs with
  | nil => intro t _; rfl
  | cons x rest ih =>
    intro t hmem
    show keysOf (upsertMany key? upd new
      (match key? x with
       | none => t
       | some gid => updateOrCreate t gid (upd x) (new x)) rest) = keysOf t
    cases hk : key? x with
    | none =>
      exact ih t (fun y hy gid hgid => hmem y (List.mem_cons_of_mem _ hy) gid hgid)
    | some gid =>
      have hg : gid ∈ keysOf t := hmem x (List.mem_cons_self _ _) gid hk
      have hkeys : keysOf (updateOrCreate t gid (upd x) (new x)) = keysOf t := by
        rw [keysOf_updateOrCreate, if_pos hg]
      rw [ih _ (fun y hy g hgid => by
        rw [hkeys]
        exact hmem y (List.mem_cons_of_mem _ hy) g hgid)]
      exact hkeys

theorem mem_keys_upsertMany {r b : Type} (key? : r → Option String)
    (upd : r → b → b) (new : r → b) :
    ∀ (recs : List r) (t : List (String × b)) (k : String),
      k ∈ keysOf t → k ∈ keysOf (upsertMany key? upd new t recs) := by
  intro recs
  induction recs with
  | nil => intro t k h; exact h
  | cons x rest ih =>
    intro t k h
    show k ∈ keysOf (upsertMany key? upd new
      (match key? x with
       | none => t
       | some gid => updateOrCreate t gid (upd x) (new x)) rest)
    cases hk : key? x with
    | none => exact ih t k h
    | some gid =>
      refine ih _ k ?_
      rw [keysOf_updateOrCreate]
      split
      · exact h
      · exact List.mem_append_left _ h

theorem key_mem_upsertMany {r b : Type} (key? : r → Option String)
    (upd : r → b → b) (new : r → b) :
    ∀ (recs : List r) (t : List (String × b)) (x : r) (gid : String),
      x ∈ recs → key? x = some gid →
      gid ∈ keysOf (upsertMany key? upd new t recs) := by
  intro recs
  induction recs with
  | nil => intro t x gid h _; exact absurd h (List.not_mem_nil x)
  | cons y rest ih =>
    intro t x gid hx hgid
    show gid ∈ keysOf (upsertMany key? upd new
      (match key? y with
       | none => t
       | some g => updateOrCreate t g (upd y) (new y)) rest)
    rcases List.mem_cons.mp hx with h1 | h2
    · subst h1
      rw [hgid]
      refine mem_keys_upsertMany key? upd new rest _ gid ?_
      rw [keysOf_updateOrCreate]
      split
      · assumption
      · exact List.mem_append_right _ (List.mem_singleton_self gid)
    · cases hk : key? y with
      | none => exact ih t x gid h2 hgid
      | some g => exact ih _ x gid h2 hgid

theorem nodup_keys_updateOrCreate {b : Type} (t : List (String × b)) (k : String)
    (u : b → b) (n : b) (h : (keysOf t).Nodup) :
    (keysOf (updateOrCreate t k u n)).Nodup := by
  rw [keysOf_updateOrCreate]
  split
  · exact h
  · rename_i hk
    simpa [List.nodup_append] using ⟨h, hk⟩

theorem nodup_keys_upsertMany {r b : Type} (key? : r → Option String)
    (upd : r → b → b) (new : r → b) :
    ∀ (recs : List r) (t : List (String × b)), (keysOf t).Nodup →
      (keysOf (upsertMany key? upd new t recs)).Nodup := by
  intro recs
  induction recs with
  | nil => intro t h; exact h
  | cons x rest ih =>
    intro t h
    show (keysOf (upsertMany key? upd new
      (match key? x with
       | none => t
       | some gid => updateOrCreate t gid (upd x) (new x)) rest)).Nodup
    cases key? x with
    | none => exact ih t h
    | some gid => exact ih _ (nodup_keys_updateOrCreate t gid _ _ h)

/-- Two tables with the same key sequence, no duplicate keys, and the same
lookups are equal. -/
theorem table_ext {b : Type} :
    ∀ (t1 t2 : List (String × b)), keysOf t1 = keysOf t2 →
      (keysOf t1).Nodup → (∀ k, alook t1 k = alook t2 k) → t1 = t2 := by
  intro t1
  induction t1 with
  | nil =>
    intro t2 hk _ _
    cases t2 with
    | nil => rfl
    | cons p rest => simp at hk
  | cons p rest ih =>
    intro t2 hk hn hl
    obtain ⟨k, v⟩ := p
    cases t2 with
    | nil => simp at hk
    | cons q rest2 =>
      obtain ⟨k2, v2⟩ := q
      simp only [keysOf_cons, List.cons.injEq] at hk
      obtain ⟨hk12, hkrest⟩ := hk
      subst hk12
      have hv : v = v2 := by
        have := hl k
        simp [alook_cons] at this
        exact this
      subst hv
      simp only [keysOf_cons, List.nodup_cons] at hn
      have hrest : rest = rest2 := by
        refine ih rest2 hkrest hn.2 ?_
        intro k'
        by_cases hkk : k' = k
        · subst hkk
          have h1 : alook rest k' = none := by
            rw [← Option.not_isSome_iff_eq_none]
            intro hs
            exact hn.1 ((mem_keysOf_iff_isSome rest k').mpr hs)
          have h2 : alook rest2 k' = none := by
            rw [← Option.not_isSome_iff_eq_none]
            intro hs
            have : k' ∈ keysOf rest2 := (mem_keysOf_iff_isSome rest2 k').mpr hs
            rw [← hkrest] at this
            exact hn.1 this
          rw [h1, h2]
        · have := hl k'
          have hne : ¬ k = k' := fun h => hkk h.symm
          simpa [alook_cons, hne] using this
      rw [hrest]

/-! ## Generic link folds (idempotent foreign-key sets) -/

def applyLinks {b : Type} (set : String → b → b) (t : List (String × b))
    (ops : List (String × String)) : List (String × b) :=
  ops.foldl (fun t op => updateRow t op.1 (set op.2)) t

def lastOpFor (ops : List (String × String)) (k : String) : Option String :=
  match ops with
  | [] => none
  | op :: rest =>
    match lastOpFor rest k with
    | some v => some v
    | none => if op.1 = k then some op.2 else none

theorem alook_applyLinks {b : Type} (set : String → b → b)
    (Hset : ∀ v v' row, set v (set v' row) = set v row) :
    ∀ (ops : List (String × String)) (t : List (String × b)) (k : String),
      alook (applyLinks set t ops) k =
        match lastOpFor ops k with
        | none => alook t k
        | some v => (alook t k).map (set v) := by
  intro ops
  induction ops with
  | nil => intro t k; rfl
  | cons op rest ih =>
    intro t k
    show alook (applyLinks set (updateRow t op.1 (set op.2)) rest) k = _
    by_cases hk : op.1 = k
    · subst hk
      rw [ih]
      cases hlast : lastOpFor rest op.1 with
      | none =>
        simp only [lastOpFor, hlast, if_pos rfl]
        exact alook_updateRow_self t op.1 _
      | some v =>
        simp only [lastOpFor, hlast]
        rw [alook_updateRow_self]
        cases alook t op.1 <;> simp [Hset]
    · rw [ih, alook_updateRow_ne t op.1 k _ (fun h => hk h.symm)]
      cases hlast : lastOpFor rest k <;> simp [lastOpFor, hlast, hk]

theorem keys_applyLinks {b : Type} (set : String → b → b) :
    ∀ (ops : List (String × String)) (t : List (String × b)),
      keysOf (applyLinks set t ops) = keysOf t := by
  intro ops
  induction ops with
  | nil => intro t; rfl
  | cons op rest ih =>
    intro t
    show keysOf (applyLinks set (updateRow t op.1 (set op.2)) rest) = keysOf t
    rw [ih, keysOf_updateRow]

theorem nodup_keys_applyLinks {b : Type} (set : String → b → b)
    (ops : List (String × String)) (t : List (String × b))
    (h : (keysOf t).Nodup) : (keysOf (applyLinks set t ops)).Nodup := by
  rw [keys_applyLinks]
  exact h


/-! ## Stage folds as instances of the generic forms -/

theorem peopleFold_eq_upsertMany (recs : List PersonRec)
    (t : List (String × PersonRow)) :
    peopleFold recs t =
      upsertMany (fun r => some (personGid r)) applyPersonDefaults newPersonRow
        t recs := rfl

theorem notesFold_eq_upsertMany (recs : List NoteRec)
    (t : List (String × NoteRow)) :
    notesFold recs t =
      upsertMany (fun r => truthy r.id)
        (fun r row => { row with text := r.text })
        (fun r => ⟨r.text, none, none, none⟩) t recs := rfl

theorem eventsFold_eq_upsertMany (recs : List EventRec) (places : List PlaceRec)
    (t : List (String × EventRow)) :
    eventsFold recs places t =
      upsertMany (fun r => truthy r.id) (applyEventDefaults places)
        (newEventRow places) t recs := rfl

/-- Under success, `_import_places` is a plain update-or-create fold and
every place record carried an id. -/
theorem placesFold_some (recs : List PlaceRec) :
    ∀ (t t' : List (String × PlaceRow)), placesFold recs t = some t' →
      t' = upsertMany (fun r => r.id) (fun r _ => ⟨r.name⟩) (fun r => ⟨r.name⟩)
        t recs := by
  induction recs with
  | nil =>
    intro t t' h
    exact (Option.some.inj h).symm
  | cons r rest ih =>
    intro t t' h
    cases hid : r.id with
    | none =>
      rw [placesFold, List.foldlM_cons, placesStep, hid] at h
      simp at h
    | some gid =>
      rw [placesFold, List.foldlM_cons, placesStep, hid] at h
      simp only [Option.some_bind] at h
      have := ih _ _ h
      rw [this]
      show _ = upsertMany _ _ _
        (match r.id with
         | none => t
         | some gid => updateOrCreate t gid (fun _ => ⟨r.name⟩) ⟨r.name⟩) rest
      rw [hid]

/-! ## Characterization of `_import_families` -/

def famRowFor (people : List PersonRec) (r : FamilyRec) : FamilyRow :=
  ⟨r.fatherHandle.bind (handlePid people), r.motherHandle.bind (handlePid people)⟩

/-- The `FamilyChild` rows created for one family: one row per resolvable
child handle, carrying the handle's `enumerate` index as order. -/
def resolvedRows (people : List PersonRec) (gid : String) (hs : List String) :
    List FCRow :=
  hs.enum.filterMap
    (fun ih => (handlePid people ih.2).map (fun pid => ⟨gid, pid, ih.1⟩))

def famGids (recs : List FamilyRec) : List String :=
  recs.filterMap (fun r => truthy r.id)

/-- The `FamilyChild` table after `_import_families`, family by family:
delete the family's rows, then append the recreated ones. -/
def famChildrenSpec (recs : List FamilyRec) (people : List PersonRec)
    (fc : List FCRow) : List FCRow :=
  match recs with
  | [] => fc
  | r :: rest =>
    match truthy r.id with
    | none => famChildrenSpec rest people fc
    | some gid =>
      famChildrenSpec rest people
        (fc.filter (fun c => ¬ c.family = gid) ++
          resolvedRows people gid r.childHandles)

theorem famChildStep_none (gid : String) (people : List PersonRec)
    (s : FamState) (p : Nat × String) (h : handlePid people p.2 = none) :
    famChildStep gid people s p = some s := by
  simp [famChildStep, h]

theorem famChildStep_dup (gid : String) (people : List PersonRec)
    (s : FamState) (p : Nat × String) (pid : String)
    (h : handlePid people p.2 = some pid)
    (hdup : s.children.any (fun c => c.family = gid ∧ c.child = pid) = true) :
    famChildStep gid people s p = none := by
  simp only [famChildStep, h]
  rw [if_pos hdup]

theorem famChildStep_add (gid : String) (people : List PersonRec)
    (s : FamState) (p : Nat × String) (pid : String)
    (h : handlePid people p.2 = some pid)
    (hdup : ¬ s.children.any (fun c => c.family = gid ∧ c.child = pid) = true) :
    famChildStep gid people s p =
      some { s with children := s.children ++ [⟨gid, pid, p.1⟩] } := by
  simp only [famChildStep, h]
  rw [if_neg hdup]

theorem famChildFold_some (gid : String) (people : List PersonRec) :
    ∀ (pairs : List (Nat × String)) (s s' : FamState),
      pairs.foldlM (famChildStep gid people) s = some s' →
      s'.families = s.families ∧
      s'.children = s.children ++ pairs.filterMap
        (fun ih => (handlePid people ih.2).map (fun pid => ⟨gid, pid, ih.1⟩)) := by
  intro pairs
  induction pairs with
  | nil =>
    intro s s' h
    rw [← Option.some.inj h]
    exact ⟨rfl, by simp⟩
  | cons p rest ih =>
    intro s s' h
    rw [List.foldlM_cons] at h
    cases hpid : handlePid people p.2 with
    | none =>
      rw [famChildStep_none gid people s p hpid] at h
      replace h : List.foldlM (famChildStep gid people) s rest = some s' := by
        simpa using h
      have := ih _ _ h
      simpa [List.filterMap_cons, hpid] using this
    | some pid =>
      by_cases hdup : s.children.any (fun c => c.family = gid ∧ c.child = pid) = true
      · rw [famChildStep_dup gid people s p pid hpid hdup] at h
        simp at h
      · rw [famChildStep_add gid people s p pid hpid hdup] at h
        replace h : List.foldlM (famChildStep gid people)
            { s with children := s.children ++ [⟨gid, pid, p.1⟩] } rest = some s' := by
          simpa using h
        have := ih _ _ h
        simp only [List.filterMap_cons, hpid]
        refine ⟨this.1, ?_⟩
        rw [this.2]
        simp

theorem famStep_skip (people : List PersonRec) (s : FamState) (r : FamilyRec)
    (hid : truthy r.id = none) : famStep people s r = some s := by
  simp [famStep, hid]

theorem famStep_unfold (people : List PersonRec) (s : FamState) (r : FamilyRec)
    (gid : String) (hid : truthy r.id = some gid) :
    famStep people s r =
      r.childHandles.enum.foldlM (famChildStep gid people)
        ⟨updateOrCreate s.families gid (fun _ => famRowFor people r)
          (famRowFor people r),
         s.children.filter (fun c => ¬ c.family = gid)⟩ := by
  simp [famStep, hid, famRowFor]

theorem famStep_some (people : List PersonRec) (s s' : FamState) (r : FamilyRec)
    (h : famStep people s r = some s') :
    (truthy r.id = none ∧ s' = s) ∨
    (∃ gid, truthy r.id = some gid ∧
      s'.families = updateOrCreate s.families gid (fun _ => famRowFor people r)
        (famRowFor people r) ∧
      s'.children = s.children.filter (fun c => ¬ c.family = gid) ++
        resolvedRows people gid r.childHandles) := by
  cases hid : truthy r.id with
  | none =>
    left
    rw [famStep_skip people s r hid] at h
    exact ⟨rfl, (Option.some.inj h).symm⟩
  | some gid =>
    right
    rw [famStep_unfold people s r gid hid] at h
    have := famChildFold_some gid people r.childHandles.enum _ _ h
    exact ⟨gid, rfl, this.1, this.2⟩

theorem famFold_some (people : List PersonRec) :
    ∀ (recs : List FamilyRec) (s s' : FamState),
      famFold recs people s = some s' →
      s'.families = upsertMany (fun r => truthy r.id)
        (fun r _ => famRowFor people r) (fun r => famRowFor people r)
        s.families recs ∧
      s'.children = famChildrenSpec recs people s.children := by
  intro recs
  induction recs with
  | nil =>
    intro s s' h
    rw [← Option.some.inj h]
    exact ⟨rfl, rfl⟩
  | cons r rest ih =>
    intro s s' h
    rw [famFold, List.foldlM_cons] at h
    cases hstep : famStep people s r with
    | none =>
      rw [hstep] at h
      simp at h
    | some s1 =>
      rw [hstep] at h
      replace h : famFold rest people s1 = some s' := by
        simpa [famFold] using h
      have hrest := ih s1 s' h
      rcases famStep_some people s s1 r hstep with ⟨hid, heq⟩ | ⟨gid, hid, hfam, hch⟩
      · refine ⟨?_, ?_⟩
        · rw [hrest.1, heq]
          show _ = upsertMany _ _ _
            (match truthy r.id with
             | none => s.families
             | some gid => updateOrCreate s.families gid _ _) rest
          rw [hid]
        · rw [hrest.2, heq]
          show _ = famChildrenSpec (r :: rest) people s.children
          rw [famChildrenSpec, hid]
      · constructor
        · rw [hrest.1, hfam]
          show _ = upsertMany _ _ _
            (match truthy r.id with
             | none => s.families
             | some g => updateOrCreate s.families g
                 (fun _ => famRowFor people r) (famRowFor people r)) rest
          rw [hid]
        · rw [hrest.2, hch]
          show _ = famChildrenSpec (r :: rest) people s.children
          rw [famChildrenSpec, hid]

/-- Rows that the batch leaves in the `FamilyChild` table: the last record
persisted under each family id wins. -/
def famRowsOut (recs : List FamilyRec) (people : List PersonRec) : List FCRow :=
  match recs with
  | [] => []
  | r :: rest =>
    match truthy r.id with
    | none => famRowsOut rest people
    | some gid =>
      (if gid ∈ famGids rest then [] else resolvedRows people gid r.childHandles)
        ++ famRowsOut rest people

theorem famChildrenSpec_cons_none (r : FamilyRec) (rest : List FamilyRec)
    (people : List PersonRec) (fc : List FCRow) (h : truthy r.id = none) :
    famChildrenSpec (r :: rest) people fc = famChildrenSpec rest people fc := by
  simp [famChildrenSpec, h]

theorem famChildrenSpec_cons_some (r : FamilyRec) (rest : List FamilyRec)
    (people : List PersonRec) (fc : List FCRow) (gid : String)
    (h : truthy r.id = some gid) :
    famChildrenSpec (r :: rest) people fc =
      famChildrenSpec rest people
        (fc.filter (fun c => ¬ c.family = gid) ++
          resolvedRows people gid r.childHandles) := by
  simp [famChildrenSpec, h]

theorem famRowsOut_cons_none (r : FamilyRec) (rest : List FamilyRec)
    (people : List PersonRec) (h : truthy r.id = none) :
    famRowsOut (r :: rest) people = famRowsOut rest people := by
  simp [famRowsOut, h]

theorem famRowsOut_cons_some (r : FamilyRec) (rest : List FamilyRec)
    (people : List PersonRec) (gid : String) (h : truthy r.id = some gid) :
    famRowsOut (r :: rest) people =
      (if gid ∈ famGids rest then [] else resolvedRows people gid r.childHandles)
        ++ famRowsOut rest people := by
  simp [famRowsOut, h]

theorem resolvedRows_family (people : List PersonRec) (gid : String)
    (hs : List String) : ∀ c ∈ resolvedRows people gid hs, c.family = gid := by
  intro c hc
  simp only [resolvedRows, List.mem_filterMap] at hc
  obtain ⟨ih, _, heq⟩ := hc
  cases hp : handlePid people ih.2 with
  | none => rw [hp] at heq; simp at heq
  | some pid =>
    rw [hp] at heq
    have hc2 : FCRow.mk gid pid ih.1 = c := by simpa using heq
    rw [← hc2]

theorem famGids_cons_none (r : FamilyRec) (rest : List FamilyRec)
    (h : truthy r.id = none) : famGids (r :: rest) = famGids rest := by
  simp [famGids, List.filterMap_cons, h]

theorem famGids_cons_some (r : FamilyRec) (rest : List FamilyRec) (gid : String)
    (h : truthy r.id = some gid) : famGids (r :: rest) = gid :: famGids rest := by
  simp [famGids, List.filterMap_cons, h]

theorem famChildrenSpec_closed (people : List PersonRec) :
    ∀ (recs : List FamilyRec) (fc : List FCRow),
      famChildrenSpec recs people fc =
        fc.filter (fun c => ¬ c.family ∈ famGids recs) ++ famRowsOut recs people := by
  intro recs
  induction recs with
  | nil =>
    intro fc
    show fc = _
    have h1 : famRowsOut ([] : List FamilyRec) people = [] := rfl
    rw [h1, List.append_nil]
    symm
    rw [List.filter_eq_self]
    intro c _
    simp [famGids]
  | cons r rest ih =>
    intro fc
    cases hid : truthy r.id with
    | none =>
      rw [famChildrenSpec_cons_none r rest people fc hid, ih,
        famGids_cons_none r rest hid, famRowsOut_cons_none r rest people hid]
    | some gid =>
      rw [famChildrenSpec_cons_some r rest people fc gid hid, ih,
        famGids_cons_some r rest gid hid, famRowsOut_cons_some r rest people gid hid,
        List.filter_append, List.filter_filter]
      have h1 : (fc.filter fun c =>
          decide (¬ c.family ∈ famGids rest) && decide (¬ c.family = gid)) =
          fc.filter (fun c => ¬ c.family ∈ gid :: famGids rest) := by
        apply List.filter_congr
        intro c _
        simp only [List.mem_cons, not_or]
        by_cases h1 : c.family = gid <;> by_cases h2 : c.family ∈ famGids rest <;>
          simp [h1, h2]
      rw [h1]
      by_cases hmem : gid ∈ famGids rest
      · have h2 : ((resolvedRows people gid r.childHandles).filter
            (fun c => ¬ c.family ∈ famGids rest)) = [] := by
          rw [List.filter_eq_nil_iff]
          intro c hc
          simp only [decide_eq_true_eq, Decidable.not_not]
          rw [resolvedRows_family people gid r.childHandles c hc]
          exact hmem
        rw [h2, if_pos hmem]
        simp
      · have h2 : ((resolvedRows people gid r.childHandles).filter
            (fun c => ¬ c.family ∈ famGids rest)) =
            resolvedRows people gid r.childHandles := by
          rw [List.filter_eq_self]
          intro c hc
          simp only [decide_eq_true_eq]
          rw [resolvedRows_family people gid r.childHandles c hc]
          exact hmem
        rw [h2, if_neg hmem]
        simp

theorem famRowsOut_family (people : List PersonRec) :
    ∀ (recs : List FamilyRec) (c : FCRow), c ∈ famRowsOut recs people →
      c.family ∈ famGids recs := by
  intro recs
  induction recs with
  | nil => intro c hc; simp [famRowsOut] at hc
  | cons r rest ih =>
    intro c hc
    cases hid : truthy r.id with
    | none =>
      rw [famRowsOut_cons_none r rest people hid] at hc
      rw [famGids_cons_none r rest hid]
      exact ih c hc
    | some gid =>
      rw [famRowsOut_cons_some r rest people gid hid] at hc
      rw [famGids_cons_some r rest gid hid]
      rcases List.mem_append.mp hc with h1 | h2
      · by_cases hmem : gid ∈ famGids rest
        · rw [if_pos hmem] at h1
          simp at h1
        · rw [if_neg hmem] at h1
          rw [resolvedRows_family people gid r.childHandles c h1]
          exact List.mem_cons_self _ _
      · exact List.mem_cons_of_mem _ (ih c h2)

theorem famChildrenSpec_idem (people : List PersonRec) (recs : List FamilyRec)
    (fc : List FCRow) :
    famChildrenSpec recs people (famChildrenSpec recs people fc) =
      famChildrenSpec recs people fc := by
  rw [famChildrenSpec_closed, famChildrenSpec_closed, List.filter_append]
  have h1 : ((famRowsOut recs people).filter
      (fun c => ¬ c.family ∈ famGids recs)) = [] := by
    rw [List.filter_eq_nil_iff]
    intro c hc
    simp only [decide_eq_true_eq, Decidable.not_not]
    exact famRowsOut_family people recs c hc
  rw [h1, List.filter_filter, List.append_nil]
  congr 1
  apply List.filter_congr
  intro c _
  cases hd : decide (¬ c.family ∈ famGids recs) <;> simp [hd]

/-! ## Second-run stability of update-or-create folds -/

theorem upsertMany_idem {r b p : Type} (key? : r → Option String)
    (upd : r → b → b) (new : r → b) (proj : b → p) (dflt : b)
    (Hpres : ∀ x row, proj (upd x row) = proj row)
    (Hdet : ∀ x row row', proj row = proj row' → upd x row = upd x row')
    (Hnew : ∀ x, new x = upd x dflt)
    (recs : List r) (t : List (String × b)) (hnodup : (keysOf t).Nodup) :
    upsertMany key? upd new (upsertMany key? upd new t recs) recs =
      upsertMany key? upd new t recs := by
  have hkeys : keysOf (upsertMany key? upd new (upsertMany key? upd new t recs) recs)
      = keysOf (upsertMany key? upd new t recs) := by
    apply keys_upsertMany_of_mem
    intro x hx gid hgid
    exact key_mem_upsertMany key? upd new recs t x gid hx hgid
  refine table_ext _ _ hkeys ?_ ?_
  · rw [hkeys]
    exact nodup_keys_upsertMany key? upd new recs t hnodup
  · intro k
    rw [alook_upsertMany key? upd new proj dflt Hpres Hdet Hnew recs _ k]
    cases hlast : lastRecFor key? recs k with
    | none => rfl
    | some x =>
      rw [alook_upsertMany key? upd new proj dflt Hpres Hdet Hnew recs t k, hlast]
      simp only [Option.getD_some]
      exact congrArg some (Hdet x _ _ (Hpres x _))

/-! ## Frame facts about `_update_dates` -/

theorem keysOf_sweep :
    ∀ (evs : List (String × EventRow)) (updated : List String)
      (people : List (String × PersonRow)),
      keysOf (sweep evs updated people) = keysOf people := by
  intro evs
  induction evs with
  | nil => intro _ _; rfl
  | cons e rest ih =>
    intro updated people
    obtain ⟨k, ev⟩ := e
    cases hp : ev.person with
    | none =>
      rw [sweep_cons_none k ev rest updated people hp]
      exact ih _ _
    | some q =>
      by_cases hq : q ∈ updated
      · rw [sweep_cons_mem k ev q rest updated people hp hq]
        exact ih _ _
      · cases hlq : alook people q with
        | none =>
          rw [sweep_cons_nolook k ev q rest updated people hp hq hlq]
          exact ih _ _
        | some row =>
          by_cases hn : evNeeds row ev = true
          · rw [sweep_cons_needs k ev q row rest updated people hp hq hlq hn]
            rw [ih _ _, keysOf_updateRow]
          · rw [sweep_cons_noneeds k ev q row rest updated people hp hq hlq hn]
            exact ih _ _

/-- The fields of a person row that `_update_dates` never touches. -/
def coreOf (row : PersonRow) : String × String × String × Option Int :=
  (row.first_name, row.last_name, row.gender, row.gramps_last_updated)

theorem coreOf_evApply (row : PersonRow) (ev : EventRow) :
    coreOf (evApply row ev) = coreOf row := by
  simp only [evApply]
  split
  · split <;> rfl
  · split
    · split
      · split <;> rfl
      · split <;> rfl
    · rfl

theorem updateDates_core (db : DB) (pid : String) :
    (alook (updateDates db).people pid).map coreOf =
      (alook db.people pid).map coreOf := by
  show (alook (sweep db.events [] db.people) pid).map coreOf = _
  rw [sweep_alook_of_notmem db.events [] db.people pid (List.not_mem_nil pid)]
  cases halook : alook db.people pid with
  | none => rfl
  | some row =>
    cases hfn : firstNeeding db.events pid row <;>
      simp [hfn, coreOf_evApply]

/-! ## The event-person link pass as a flat op list -/

def eventLinkOps (recs : List EventRec) (people : List PersonRec) :
    List (String × String) :=
  (people.map (fun p => p.eventRefs.filterMap
    (fun h => (eventIdByHandle recs h).map (fun eid => (eid, personGid p))))).flatten

def setEvPerson (pid : String) (row : EventRow) : EventRow :=
  { row with person := some pid }

theorem eventsLinkInner (recs : List EventRec) (pid : String) :
    ∀ (refs : List String) (t : List (String × EventRow)),
      refs.foldl (eventsLinkStep recs pid) t =
        applyLinks setEvPerson t
          (refs.filterMap (fun h => (eventIdByHandle recs h).map (fun eid => (eid, pid)))) := by
  intro refs
  induction refs with
  | nil => intro t; rfl
  | cons h rest ih =>
    intro t
    rw [List.foldl_cons]
    cases heid : eventIdByHandle recs h with
    | none =>
      rw [List.filterMap_cons]
      rw [heid]
      show rest.foldl (eventsLinkStep recs pid)
        (match eventIdByHandle recs h with
         | none => t
         | some eid => updateRow t eid (fun row => { row with person := some pid })) = _
      rw [heid, ih]
      rfl
    | some eid =>
      rw [List.filterMap_cons, heid]
      show rest.foldl (eventsLinkStep recs pid)
        (match eventIdByHandle recs h with
         | none => t
         | some eid => updateRow t eid (fun row => { row with person := some pid })) = _
      rw [heid, ih]
      rfl

theorem applyLinks_append {b : Type} (set : String → b → b)
    (t : List (String × b)) (ops1 ops2 : List (String × String)) :
    applyLinks set t (ops1 ++ ops2) = applyLinks set (applyLinks set t ops1) ops2 := by
  simp [applyLinks, List.foldl_append]

theorem eventLinkOps_cons (recs : List EventRec) (p : PersonRec)
    (ps : List PersonRec) :
    eventLinkOps recs (p :: ps) =
      (p.eventRefs.filterMap
        (fun h => (eventIdByHandle recs h).map (fun eid => (eid, personGid p)))) ++
      eventLinkOps recs ps := by
  simp [eventLinkOps]

theorem eventsLinkFold_eq_applyLinks (recs : List EventRec) :
    ∀ (people : List PersonRec) (t : List (String × EventRow)),
      eventsLinkFold recs people t =
        applyLinks setEvPerson t (eventLinkOps recs people) := by
  intro people
  induction people with
  | nil => intro t; rfl
  | cons p ps ih =>
    intro t
    show ps.foldl _ (p.eventRefs.foldl (eventsLinkStep recs (personGid p)) t) = _
    rw [eventsLinkInner recs (personGid p) p.eventRefs t]
    show eventsLinkFold recs ps _ = _
    rw [ih, eventLinkOps_cons, applyLinks_append]

/-! ## The note association passes as flat op lists -/

def setNotePerson (pid : String) (row : NoteRow) : NoteRow :=
  { row with person := some pid }

def setNoteFamily (fid : String) (row : NoteRow) : NoteRow :=
  { row with family := some fid }

def setNoteEvent (eid : String) (row : NoteRow) : NoteRow :=
  { row with event := some eid }

def notePersonOps (notes : List NoteRec) (people : List PersonRec) :
    List (String × String) :=
  (people.map (fun p => p.noteRefs.filterMap (fun h =>
    (noteByHandle notes h).bind
      (fun nrec => (truthy nrec.id).map (fun nid => (nid, personGid p)))))).flatten

def noteFamilyOps (notes : List NoteRec) (fams : List FamilyRec) :
    List (String × String) :=
  (fams.map (fun f => f.noteRefs.filterMap (fun h =>
    (noteByHandle notes h).bind
      (fun nrec => (truthy nrec.id).bind
        (fun nid => (truthy f.id).map (fun fid => (nid, fid))))))).flatten

def noteEventOps (notes : List NoteRec) (evs : List EventRec) :
    List (String × String) :=
  (evs.map (fun e => e.noteRefs.filterMap (fun h =>
    (noteByHandle notes h).bind
      (fun nrec => (truthy nrec.id).bind
        (fun nid => (truthy e.id).map (fun eid => (nid, eid))))))).flatten

theorem noteRefPersonStep_skip (notes : List NoteRec) (pid : String)
    (t : List (String × NoteRow)) (hl : String)
    (h : noteByHandle notes hl = none) :
    noteRefPersonStep notes pid t hl = some t := by
  simp [noteRefPersonStep, h]

theorem noteRefPersonStep_set (notes : List NoteRec) (pid : String)
    (t : List (String × NoteRow)) (hl : String) (nrec : NoteRec) (nid : String)
    (h : noteByHandle notes hl = some nrec) (hid : truthy nrec.id = some nid) :
    noteRefPersonStep notes pid t hl = some (updateRow t nid (setNotePerson pid)) := by
  simp only [noteRefPersonStep, h, hid]
  rfl

theorem noteRefPersonStep_abort (notes : List NoteRec) (pid : String)
    (t : List (String × NoteRow)) (hl : String) (nrec : NoteRec)
    (h : noteByHandle notes hl = some nrec) (hid : truthy nrec.id = none) :
    noteRefPersonStep notes pid t hl = none := by
  simp [noteRefPersonStep, h, hid]

theorem noteRefPersonFold_some (notes : List NoteRec) (pid : String) :
    ∀ (refs : List String) (t t' : List (String × NoteRow)),
      refs.foldlM (noteRefPersonStep notes pid) t = some t' →
      t' = applyLinks setNotePerson t
        (refs.filterMap (fun h => (noteByHandle notes h).bind
          (fun nrec => (truthy nrec.id).map (fun nid => (nid, pid))))) := by
  intro refs
  induction refs with
  | nil =>
    intro t t' h
    exact (Option.some.inj h).symm
  | cons hl rest ih =>
    intro t t' h
    rw [List.foldlM_cons] at h
    cases hnbh : noteByHandle notes hl with
    | none =>
      rw [noteRefPersonStep_skip notes pid t hl hnbh] at h
      replace h : List.foldlM (noteRefPersonStep notes pid) t rest = some t' := by
        simpa using h
      rw [ih t t' h, List.filterMap_cons, hnbh]
      rfl
    | some nrec =>
      cases hid : truthy nrec.id with
      | none =>
        rw [noteRefPersonStep_abort notes pid t hl nrec hnbh hid] at h
        simp at h
      | some nid =>
        rw [noteRefPersonStep_set notes pid t hl nrec nid hnbh hid] at h
        replace h : List.foldlM (noteRefPersonStep notes pid)
            (updateRow t nid (setNotePerson pid)) rest = some t' := by
          simpa using h
        rw [ih _ t' h, List.filterMap_cons, hnbh]
        simp only [Option.some_bind, hid, Option.map_some]
        rfl

theorem notePersonOps_cons (notes : List NoteRec) (p : PersonRec)
    (ps : List PersonRec) :
    notePersonOps notes (p :: ps) =
      (p.noteRefs.filterMap (fun h => (noteByHandle notes h).bind
        (fun nrec => (truthy nrec.id).map (fun nid => (nid, personGid p))))) ++
      notePersonOps notes ps := by
  simp [notePersonOps]

theorem notesPersonPhase_some (notes : List NoteRec) :
    ∀ (people : List PersonRec) (t t' : List (String × NoteRow)),
      people.foldlM
        (fun t p => p.noteRefs.foldlM (noteRefPersonStep notes (personGid p)) t) t
        = some t' →
      t' = applyLinks setNotePerson t (notePersonOps notes people) := by
  intro people
  induction people with
  | nil =>
    intro t t' h
    exact (Option.some.inj h).symm
  | cons p ps ih =>
    intro t t' h
    rw [List.foldlM_cons] at h
    cases hin : p.noteRefs.foldlM (noteRefPersonStep notes (personGid p)) t with
    | none => rw [hin] at h; simp at h
    | some t1 =>
      rw [hin] at h
      replace h : ps.foldlM
          (fun t p => p.noteRefs.foldlM (noteRefPersonStep notes (personGid p)) t) t1
          = some t' := by
        simpa using h
      rw [ih t1 t' h, noteRefPersonFold_some notes (personGid p) p.noteRefs t t1 hin,
        notePersonOps_cons, applyLinks_append]

theorem noteRefFamilyStep_skip (notes : List NoteRec) (fid? : Option String)
    (t : List (String × NoteRow)) (hl : String)
    (h : noteByHandle notes hl = none) :
    noteRefFamilyStep notes fid? t hl = some t := by
  simp [noteRefFamilyStep, h]

theorem noteRefFamilyStep_set (notes : List NoteRec) (fid : String)
    (t : List (String × NoteRow)) (hl : String) (nrec : NoteRec) (nid : String)
    (h : noteByHandle notes hl = some nrec) (hid : truthy nrec.id = some nid) :
    noteRefFamilyStep notes (some fid) t hl =
      some (updateRow t nid (setNoteFamily fid)) := by
  simp only [noteRefFamilyStep, h, hid]
  rfl

theorem noteRefFamilyStep_abort (notes : List NoteRec) (fid? : Option String)
    (t : List (String × NoteRow)) (hl : String) (nrec : NoteRec)
    (h : noteByHandle notes hl = some nrec)
    (habort : truthy nrec.id = none ∨ fid? = none) :
    noteRefFamilyStep notes fid? t hl = none := by
  rcases habort with h1 | h1
  · simp [noteRefFamilyStep, h, h1]
  · cases hid : truthy nrec.id with
    | none => simp [noteRefFamilyStep, h, hid]
    | some nid => simp [noteRefFamilyStep, h, hid, h1]

theorem noteRefFamilyFold_some (notes : List NoteRec) (fid? : Option String) :
    ∀ (refs : List String) (t t' : List (String × NoteRow)),
      refs.foldlM (noteRefFamilyStep notes fid?) t = some t' →
      t' = applyLinks setNoteFamily t
        (refs.filterMap (fun h => (noteByHandle notes h).bind
          (fun nrec => (truthy nrec.id).bind
            (fun nid => fid?.map (fun fid => (nid, fid)))))) := by
  cases fid? with
  | none =>
    intro refs
    induction refs with
    | nil =>
      intro t t' h
      exact (Option.some.inj h).symm
    | cons hl rest ih =>
      intro t t' h
      rw [List.foldlM_cons] at h
      cases hnbh : noteByHandle notes hl with
      | none =>
        rw [noteRefFamilyStep_skip notes none t hl hnbh] at h
        replace h : List.foldlM (noteRefFamilyStep notes none) t rest = some t' := by
          simpa using h
        rw [ih t t' h, List.filterMap_cons, hnbh]
        rfl
      | some nrec =>
        cases hid : truthy nrec.id with
        | none =>
          rw [noteRefFamilyStep_abort notes none t hl nrec hnbh (Or.inl hid)] at h
          simp at h
        | some nid =>
          rw [noteRefFamilyStep_abort notes none t hl nrec hnbh (Or.inr rfl)] at h
          simp at h
  | some fid =>
    intro refs
    induction refs with
    | nil =>
      intro t t' h
      exact (Option.some.inj h).symm
    | cons hl rest ih =>
      intro t t' h
      rw [List.foldlM_cons] at h
      cases hnbh : noteByHandle notes hl with
      | none =>
        rw [noteRefFamilyStep_skip notes (some fid) t hl hnbh] at h
        replace h : List.foldlM (noteRefFamilyStep notes (some fid)) t rest
            = some t' := by
          simpa using h
        rw [ih t t' h, List.filterMap_cons, hnbh]
        rfl
      | some nrec =>
        cases hid : truthy nrec.id with
        | none =>
          rw [noteRefFamilyStep_abort notes (some fid) t hl nrec hnbh (Or.inl hid)] at h
          simp at h
        | some nid =>
          rw [noteRefFamilyStep_set notes fid t hl nrec nid hnbh hid] at h
          replace h : List.foldlM (noteRefFamilyStep notes (some fid))
              (updateRow t nid (setNoteFamily fid)) rest = some t' := by
            simpa using h
          rw [ih _ t' h, List.filterMap_cons, hnbh]
          simp only [Option.some_bind, hid, Option.map_some]
          rfl

theorem noteFamilyOps_cons (notes : List NoteRec) (f : FamilyRec)
    (fs : List FamilyRec) :
    noteFamilyOps notes (f :: fs) =
      (f.noteRefs.filterMap (fun h => (noteByHandle notes h).bind
        (fun nrec => (truthy nrec.id).bind
          (fun nid => (truthy f.id).map (fun fid => (nid, fid)))))) ++
      noteFamilyOps notes fs := by
  simp [noteFamilyOps]

theorem notesFamilyPhase_some (notes : List NoteRec) :
    ∀ (fams : List FamilyRec) (t t' : List (String × NoteRow)),
      fams.foldlM
        (fun t f => f.noteRefs.foldlM (noteRefFamilyStep notes (truthy f.id)) t) t
        = some t' →
      t' = applyLinks setNoteFamily t (noteFamilyOps notes fams) := by
  intro fams
  induction fams with
  | nil =>
    intro t t' h
    exact (Option.some.inj h).symm
  | cons f fs ih =>
    intro t t' h
    rw [List.foldlM_cons] at h
    cases hin : f.noteRefs.foldlM (noteRefFamilyStep notes (truthy f.id)) t with
    | none => rw [hin] at h; simp at h
    | some t1 =>
      rw [hin] at h
      replace h : fs.foldlM
          (fun t f => f.noteRefs.foldlM (noteRefFamilyStep notes (truthy f.id)) t) t1
          = some t' := by
        simpa using h
      rw [ih t1 t' h, noteRefFamilyFold_some notes (truthy f.id) f.noteRefs t t1 hin,
        noteFamilyOps_cons, applyLinks_append]

theorem noteRefEventStep_skip (notes : List NoteRec) (eid? : Option String)
    (t : List (String × NoteRow)) (hl : String)
    (h : noteByHandle notes hl = none) :
    noteRefEventStep notes eid? t hl = some t := by
  simp [noteRefEventStep, h]

theorem noteRefEventStep_set (notes : List NoteRec) (eid : String)
    (t : List (String × NoteRow)) (hl : String) (nrec : NoteRec) (nid : String)
    (h : noteByHandle notes hl = some nrec) (hid : truthy nrec.id = some nid) :
    noteRefEventStep notes (some eid) t hl =
      some (updateRow t nid (setNoteEvent eid)) := by
  simp only [noteRefEventStep, h, hid]
  rfl

theorem noteRefEventStep_abort (notes : List NoteRec) (eid? : Option String)
    (t : List (String × NoteRow)) (hl : String) (nrec : NoteRec)
    (h : noteByHandle notes hl = some nrec)
    (habort : truthy nrec.id = none ∨ eid? = none) :
    noteRefEventStep notes eid? t hl = none := by
  rcases habort with h1 | h1
  · simp [noteRefEventStep, h, h1]
  · cases hid : truthy nrec.id with
    | none => simp [noteRefEventStep, h, hid]
    | some nid => simp [noteRefEventStep, h, hid, h1]

theorem noteRefEventFold_some (notes : List NoteRec) (eid? : Option String) :
    ∀ (refs : List String) (t t' : List (String × NoteRow)),
      refs.foldlM (noteRefEventStep notes eid?) t = some t' →
      t' = applyLinks setNoteEvent t
        (refs.filterMap (fun h => (noteByHandle notes h).bind
          (fun nrec => (truthy nrec.id).bind
            (fun nid => eid?.map (fun eid => (nid, eid)))))) := by
  cases eid? with
  | none =>
    intro refs
    induction refs with
    | nil =>
      intro t t' h
      exact (Option.some.inj h).symm
    | cons hl rest ih =>
      intro t t' h
      rw [List.foldlM_cons] at h
      cases hnbh : noteByHandle notes hl with
      | none =>
        rw [noteRefEventStep_skip notes none t hl hnbh] at h
        replace h : List.foldlM (noteRefEventStep notes none) t rest = some t' := by
          simpa using h
        rw [ih t t' h, List.filterMap_cons, hnbh]
        rfl
      | some nrec =>
        cases hid : truthy nrec.id with
        | none =>
          rw [noteRefEventStep_abort notes none t hl nrec hnbh (Or.inl hid)] at h
          simp at h
        | some nid =>
          rw [noteRefEventStep_abort notes none t hl nrec hnbh (Or.inr rfl)] at h
          simp at h
  | some eid =>
    intro refs
    induction refs with
    | nil =>
      intro t t' h
      exact (Option.some.inj h).symm
    | cons hl rest ih =>
      intro t t' h
      rw [List.foldlM_cons] at h
      cases hnbh : noteByHandle notes hl with
      | none =>
        rw [noteRefEventStep_skip notes (some eid) t hl hnbh] at h
        replace h : List.foldlM (noteRefEventStep notes (some eid)) t rest
            = some t' := by
          simpa using h
        rw [ih t t' h, List.filterMap_cons, hnbh]
        rfl
      | some nrec =>
        cases hid : truthy nrec.id with
        | none =>
          rw [noteRefEventStep_abort notes (some eid) t hl nrec hnbh (Or.inl hid)] at h
          simp at h
        | some nid =>
          rw [noteRefEventStep_set notes eid t hl nrec nid hnbh hid] at h
          replace h : List.foldlM (noteRefEventStep notes (some eid))
              (updateRow t nid (setNoteEvent eid)) rest = some t' := by
            simpa using h
          rw [ih _ t' h, List.filterMap_cons, hnbh]
          simp only [Option.some_bind, hid, Option.map_some]
          rfl

theorem noteEventOps_cons (notes : List NoteRec) (e : EventRec)
    (es : List EventRec) :
    noteEventOps notes (e :: es) =
      (e.noteRefs.filterMap (fun h => (noteByHandle notes h).bind
        (fun nrec => (truthy nrec.id).bind
          (fun nid => (truthy e.id).map (fun eid => (nid, eid)))))) ++
      noteEventOps notes es := by
  simp [noteEventOps]

theorem notesEventPhase_some (notes : List NoteRec) :
    ∀ (evs : List EventRec) (t t' : List (String × NoteRow)),
      evs.foldlM
        (fun t e => e.noteRefs.foldlM (noteRefEventStep notes (truthy e.id)) t) t
        = some t' →
      t' = applyLinks setNoteEvent t (noteEventOps notes evs) := by
  intro evs
  induction evs with
  | nil =>
    intro t t' h
    exact (Option.some.inj h).symm
  | cons e es ih =>
    intro t t' h
    rw [List.foldlM_cons] at h
    cases hin : e.noteRefs.foldlM (noteRefEventStep notes (truthy e.id)) t with
    | none => rw [hin] at h; simp at h
    | some t1 =>
      rw [hin] at h
      replace h : es.foldlM
          (fun t e => e.noteRefs.foldlM (noteRefEventStep notes (truthy e.id)) t) t1
          = some t' := by
        simpa using h
      rw [ih t1 t' h, noteRefEventFold_some notes (truthy e.id) e.noteRefs t t1 hin,
        noteEventOps_cons, applyLinks_append]

theorem assocNotesFold_some (input : GrampsInput)
    (t t' : List (String × NoteRow)) (h : assocNotesFold input t = some t') :
    t' = applyLinks setNoteEvent
          (applyLinks setNoteFamily
            (applyLinks setNotePerson t (notePersonOps input.notes input.people))
            (noteFamilyOps input.notes input.families))
          (noteEventOps input.notes input.events) := by
  rw [assocNotesFold] at h
  cases h1 : input.people.foldlM
      (fun t p => p.noteRefs.foldlM (noteRefPersonStep input.notes (personGid p)) t) t with
  | none => rw [h1] at h; simp at h
  | some t1 =>
    rw [h1] at h
    replace h : (do
        let t ← input.families.foldlM
          (fun t f => f.noteRefs.foldlM (noteRefFamilyStep input.notes (truthy f.id)) t) t1
        input.events.foldlM
          (fun t e => e.noteRefs.foldlM (noteRefEventStep input.notes (truthy e.id)) t) t)
        = some t' := by
      simpa using h
    cases h2 : input.families.foldlM
        (fun t f => f.noteRefs.foldlM (noteRefFamilyStep input.notes (truthy f.id)) t) t1 with
    | none => rw [h2] at h; simp at h
    | some t2 =>
      rw [h2] at h
      replace h : input.events.foldlM
          (fun t e => e.noteRefs.foldlM (noteRefEventStep input.notes (truthy e.id)) t) t2
          = some t' := by
        simpa using h
      rw [notesEventPhase_some input.notes input.events t2 t' h,
        notesFamilyPhase_some input.notes input.families t1 t2 h2,
        notesPersonPhase_some input.notes input.people t t1 h1]

/-! ## Characterization of `_import_media` -/

theorem collisionLoop_not_mem (fs : List String) (name ext filename : String)
    (counter fuel : Nat) (hf : 0 < fuel) (h : filename ∉ fs) :
    collisionLoop fs name ext filename counter fuel = filename := by
  cases fuel with
  | zero => exact absurd hf (by simp)
  | succ n => simp [collisionLoop, h]

/-- The media row stored for one record, as a function of the record, the
environment and the `imported/` listing at the time the record is
processed. -/
def mediaRowFor (env : Env) (fs : List String) (r : MediaRec) : MediaRow :=
  match r.file with
  | none => ⟨"", "", ""⟩
  | some f =>
    let filename := pyBasename f.src
    if filename ∈ fs then ⟨"imported/" ++ filename, f.mime, f.description⟩
    else
      match findSource env f.src filename with
      | some _ => ⟨"imported/" ++ filename, f.mime, f.description⟩
      | none => ⟨f.src, f.mime, f.description⟩

/-- The file names the batch copies into `imported/`, relative to a fixed
initial listing. -/
def mediaCopies (env : Env) (fs : List String) (recs : List MediaRec) :
    List String :=
  recs.filterMap (fun r =>
    match truthy r.id, r.file with
    | some _, some f =>
      if pyBasename f.src ∈ fs then none
      else
        match findSource env f.src (pyBasename f.src) with
        | some _ => some (pyBasename f.src)
        | none => none
    | _, _ => none)

/-- The base file names of the id-carrying, file-carrying media records. -/
def mediaBasenames (recs : List MediaRec) : List String :=
  recs.filterMap (fun r =>
    match truthy r.id, r.file with
    | some _, some f => some (pyBasename f.src)
    | _, _ => none)

theorem upsertMany_congr {r b : Type} (key? : r → Option String)
    (u1 u2 : r → b → b) (n1 n2 : r → b) :
    ∀ (recs : List r) (t : List (String × b)),
      (∀ x ∈ recs, (key? x).isSome → u1 x = u2 x ∧ n1 x = n2 x) →
      upsertMany key? u1 n1 t recs = upsertMany key? u2 n2 t recs := by
  intro recs
  induction recs with
  | nil => intro t _; rfl
  | cons x rest ih =>
    intro t hcong
    show upsertMany key? u1 n1
        (match key? x with
         | none => t
         | some gid => updateOrCreate t gid (u1 x) (n1 x)) rest = _
    cases hk : key? x with
    | none =>
      rw [ih t (fun y hy hs => hcong y (List.mem_cons_of_mem _ hy) hs)]
      show _ = upsertMany key? u2 n2
        (match key? x with
         | none => t
         | some gid => updateOrCreate t gid (u2 x) (n2 x)) rest
      rw [hk]
    | some gid =>
      have hx := hcong x (List.mem_cons_self _ _) (by rw [hk]; rfl)
      rw [ih _ (fun y hy hs => hcong y (List.mem_cons_of_mem _ hy) hs)]
      show _ = upsertMany key? u2 n2
        (match key? x with
         | none => t
         | some gid => updateOrCreate t gid (u2 x) (n2 x)) rest
      rw [hk, hx.1, hx.2]

theorem mediaStep_skip (env : Env) (s : MediaState) (r : MediaRec)
    (h : truthy r.id = none) : mediaStep env s r = s := by
  simp [mediaStep, h]

theorem mediaStep_nofile (env : Env) (s : MediaState) (r : MediaRec)
    (gid : String) (hid : truthy r.id = some gid) (hf : r.file = none) :
    mediaStep env s r = mediaUpsert s gid ⟨"", "", ""⟩ := by
  simp [mediaStep, hid, hf]

theorem mediaStep_reuse (env : Env) (s : MediaState) (r : MediaRec)
    (gid : String) (f : MediaFileRec) (hid : truthy r.id = some gid)
    (hf : r.file = some f) (hmem : pyBasename f.src ∈ s.fs) :
    mediaStep env s r =
      mediaUpsert s gid ⟨"imported/" ++ pyBasename f.src, f.mime, f.description⟩ := by
  simp [mediaStep, hid, hf, hmem]

theorem mediaStep_copy (env : Env) (s : MediaState) (r : MediaRec)
    (gid : String) (f : MediaFileRec) (src : String)
    (hid : truthy r.id = some gid) (hf : r.file = some f)
    (hmem : pyBasename f.src ∉ s.fs)
    (hfind : findSource env f.src (pyBasename f.src) = some src) :
    mediaStep env s r =
      mediaUpsert { s with fs := s.fs ++ [pyBasename f.src] } gid
        ⟨"imported/" ++ pyBasename f.src, f.mime, f.description⟩ := by
  have hcl := collisionLoop_not_mem s.fs (splitExt (pyBasename f.src)).1
    (splitExt (pyBasename f.src)).2 (pyBasename f.src) 1 (s.fs.length + 1)
    (Nat.succ_pos _) hmem
  simp [mediaStep, hid, hf, hmem, hfind, hcl]

theorem mediaStep_notfound (env : Env) (s : MediaState) (r : MediaRec)
    (gid : String) (f : MediaFileRec) (hid : truthy r.id = some gid)
    (hf : r.file = some f) (hmem : pyBasename f.src ∉ s.fs)
    (hfind : findSource env f.src (pyBasename f.src) = none) :
    mediaStep env s r = mediaUpsert s gid ⟨f.src, f.mime, f.description⟩ := by
  simp [mediaStep, hid, hf, hmem, hfind]

theorem mediaBasenames_cons_active (x : MediaRec) (rest : List MediaRec)
    (gid : String) (f : MediaFileRec) (hid : truthy x.id = some gid)
    (hf : x.file = some f) :
    mediaBasenames (x :: rest) = pyBasename f.src :: mediaBasenames rest := by
  simp [mediaBasenames, List.filterMap_cons, hid, hf]

theorem mediaBasenames_cons_inactive (x : MediaRec) (rest : List MediaRec)
    (h : truthy x.id = none ∨ x.file = none) :
    mediaBasenames (x :: rest) = mediaBasenames rest := by
  rcases h with h | h
  · simp [mediaBasenames, List.filterMap_cons, h]
  · cases hid : truthy x.id <;>
      simp [mediaBasenames, List.filterMap_cons, hid, h]

theorem mem_mediaBasenames (recs : List MediaRec) (x : MediaRec)
    (gid : String) (f : MediaFileRec) (hx : x ∈ recs)
    (hid : truthy x.id = some gid) (hf : x.file = some f) :
    pyBasename f.src ∈ mediaBasenames recs := by
  simp only [mediaBasenames, List.mem_filterMap]
  refine ⟨x, hx, ?_⟩
  rw [hid, hf]

theorem mediaRowFor_ext (env : Env) (fs fs' : List String) (r : MediaRec)
    (h : ∀ f : MediaFileRec, r.file = some f →
      (pyBasename f.src ∈ fs ↔ pyBasename f.src ∈ fs')) :
    mediaRowFor env fs r = mediaRowFor env fs' r := by
  cases hf : r.file with
  | none => simp [mediaRowFor, hf]
  | some f =>
    have hiff := h f hf
    by_cases hm : pyBasename f.src ∈ fs
    · simp [mediaRowFor, hf, hm, hiff.mp hm]
    · have hm' : pyBasename f.src ∉ fs' := fun hh => hm (hiff.mpr hh)
      simp [mediaRowFor, hf, hm, hm']

theorem mediaCopies_ext (env : Env) (fs fs' : List String) :
    ∀ (recs : List MediaRec),
      (∀ b ∈ mediaBasenames recs, (b ∈ fs ↔ b ∈ fs')) →
      mediaCopies env fs recs = mediaCopies env fs' recs := by
  intro recs
  induction recs with
  | nil => intro _; rfl
  | cons x rest ih =>
    intro hiff
    cases hid : truthy x.id with
    | none =>
      have hrest := ih (fun b hb => hiff b (by
        rw [mediaBasenames_cons_inactive x rest (Or.inl hid)]
        exact hb))
      simp only [mediaCopies, List.filterMap_cons, hid] at hrest ⊢
      exact hrest
    | some gid =>
      cases hf : x.file with
      | none =>
        have hrest := ih (fun b hb => hiff b (by
          rw [mediaBasenames_cons_inactive x rest (Or.inr hf)]
          exact hb))
        simp only [mediaCopies, List.filterMap_cons, hid, hf] at hrest ⊢
        exact hrest
      | some f =>
        have hmem := hiff (pyBasename f.src) (by
          rw [mediaBasenames_cons_active x rest gid f hid hf]
          exact List.mem_cons_self _ _)
        have hrest := ih (fun b hb => hiff b (by
          rw [mediaBasenames_cons_active x rest gid f hid hf]
          exact List.mem_cons_of_mem _ hb))
        simp only [mediaCopies, List.filterMap_cons, hid, hf] at hrest ⊢
        by_cases hm : pyBasename f.src ∈ fs
        · simp only [hm, hmem.mp hm, if_pos]
          exact hrest
        · have hm' : pyBasename f.src ∉ fs' := fun hh => hm (hmem.mpr hh)
          simp only [if_neg hm, if_neg hm']
          cases findSource env f.src (pyBasename f.src) <;>
            simp [hrest]

theorem mediaRowFor_extend (env : Env) (fs : List String) (bn : String)
    (rest : List MediaRec) (hb : bn ∉ mediaBasenames rest) :
    ∀ x ∈ rest, ((fun r : MediaRec => truthy r.id) x).isSome →
      (fun (r : MediaRec) (_ : MediaRow) => mediaRowFor env (fs ++ [bn]) r) x =
        (fun (r : MediaRec) (_ : MediaRow) => mediaRowFor env fs r) x ∧
      (fun r : MediaRec => mediaRowFor env (fs ++ [bn]) r) x =
        (fun r : MediaRec => mediaRowFor env fs r) x := by
  intro x hx hsome
  have hrow : mediaRowFor env (fs ++ [bn]) x = mediaRowFor env fs x := by
    apply mediaRowFor_ext
    intro f hf
    cases hid : truthy x.id with
    | none => simp [hid] at hsome
    | some gid =>
      have hbn : pyBasename f.src ∈ mediaBasenames rest :=
        mem_mediaBasenames rest x gid f hx hid hf
      have hne : ¬ pyBasename f.src = bn := fun hh => hb (hh ▸ hbn)
      simp [List.mem_append, hne]
  exact ⟨funext (fun _ => hrow), hrow⟩

theorem mediaCopies_extend (env : Env) (fs : List String) (bn : String)
    (rest : List MediaRec) (hb : bn ∉ mediaBasenames rest) :
    mediaCopies env (fs ++ [bn]) rest = mediaCopies env fs rest := by
  symm
  apply mediaCopies_ext
  intro b hbmem
  have hne : ¬ b = bn := fun hh => hb (hh ▸ hbmem)
  simp [List.mem_append, hne]

/-- Closed form of the media stage (lines 463-553): provided no two active
records share a base file name, each stored row is `mediaRowFor` of the
initial listing and the listing grows by exactly the copied names. -/
theorem mediaFold_char (env : Env) :
    ∀ (recs : List MediaRec) (s : MediaState), (mediaBasenames recs).Nodup →
      mediaFold recs env s =
        ⟨upsertMany (fun r => truthy r.id)
          (fun r _ => mediaRowFor env s.fs r) (fun r => mediaRowFor env s.fs r)
          s.media recs,
         s.fs ++ mediaCopies env s.fs recs⟩ := by
  intro recs
  induction recs with
  | nil =>
    intro s _
    cases s
    simp [mediaFold, upsertMany, mediaCopies]
  | cons x rest ih =>
    intro s hnodup
    show mediaFold rest env (mediaStep env s x) = _
    cases hid : truthy x.id with
    | none =>
      rw [mediaStep_skip env s x hid]
      rw [mediaBasenames_cons_inactive x rest (Or.inl hid)] at hnodup
      rw [ih s hnodup, MediaState.mk.injEq]
      refine ⟨?_, ?_⟩
      · show upsertMany _ _ _ s.media rest = upsertMany
          (fun r : MediaRec => truthy r.id)
          (fun r _ => mediaRowFor env s.fs r) (fun r => mediaRowFor env s.fs r)
          (match truthy x.id with
           | none => s.media
           | some gid => updateOrCreate s.media gid
               (fun _ => mediaRowFor env s.fs x) (mediaRowFor env s.fs x)) rest
        rw [hid]
      · show s.fs ++ mediaCopies env s.fs rest = _
        simp only [mediaCopies, List.filterMap_cons, hid]
    | some gid =>
      cases hf : x.file with
      | none =>
        rw [mediaStep_nofile env s x gid hid hf]
        rw [mediaBasenames_cons_inactive x rest (Or.inr hf)] at hnodup
        rw [ih _ hnodup]
        simp only [mediaUpsert]
        rw [MediaState.mk.injEq]
        have hrow : mediaRowFor env s.fs x = ⟨"", "", ""⟩ := by
          simp [mediaRowFor, hf]
        refine ⟨?_, ?_⟩
        · show upsertMany _ _ _
            (updateOrCreate s.media gid (fun _ => (⟨"", "", ""⟩ : MediaRow))
              (⟨"", "", ""⟩ : MediaRow)) rest = upsertMany
            (fun r : MediaRec => truthy r.id)
            (fun r _ => mediaRowFor env s.fs r) (fun r => mediaRowFor env s.fs r)
            (match truthy x.id with
             | none => s.media
             | some g => updateOrCreate s.media g
                 (fun _ => mediaRowFor env s.fs x) (mediaRowFor env s.fs x)) rest
          rw [hid, hrow]
        · show s.fs ++ mediaCopies env s.fs rest = _
          simp only [mediaCopies, List.filterMap_cons, hid, hf]
      | some f =>
        rw [mediaBasenames_cons_active x rest gid f hid hf] at hnodup
        rw [List.nodup_cons] at hnodup
        by_cases hm : pyBasename f.src ∈ s.fs
        · rw [mediaStep_reuse env s x gid f hid hf hm]
          rw [ih _ hnodup.2]
          simp only [mediaUpsert]
          rw [MediaState.mk.injEq]
          have hrow : mediaRowFor env s.fs x =
              ⟨"imported/" ++ pyBasename f.src, f.mime, f.description⟩ := by
            simp [mediaRowFor, hf, hm]
          refine ⟨?_, ?_⟩
          · show upsertMany _ _ _
              (updateOrCreate s.media gid
                (fun _ => (⟨"imported/" ++ pyBasename f.src, f.mime,
                    f.description⟩ : MediaRow))
                ⟨"imported/" ++ pyBasename f.src, f.mime, f.description⟩) rest =
              upsertMany (fun r : MediaRec => truthy r.id)
              (fun r _ => mediaRowFor env s.fs r) (fun r => mediaRowFor env s.fs r)
              (match truthy x.id with
               | none => s.media
               | some g => updateOrCreate s.media g
                   (fun _ => mediaRowFor env s.fs x) (mediaRowFor env s.fs x)) rest
            rw [hid, hrow]
          · show s.fs ++ mediaCopies env s.fs rest = _
            simp only [mediaCopies, List.filterMap_cons, hid, hf, if_pos hm]
        · cases hfind : findSource env f.src (pyBasename f.src) with
          | some src =>
            rw [mediaStep_copy env s x gid f src hid hf hm hfind]
            rw [ih _ hnodup.2]
            simp only [mediaUpsert]
            rw [MediaState.mk.injEq]
            have hrow : mediaRowFor env s.fs x =
                ⟨"imported/" ++ pyBasename f.src, f.mime, f.description⟩ := by
              simp [mediaRowFor, hf, hm, hfind]
            have hcong := upsertMany_congr (fun r : MediaRec => truthy r.id)
              (fun r _ => mediaRowFor env (s.fs ++ [pyBasename f.src]) r)
              (fun r _ => mediaRowFor env s.fs r)
              (fun r => mediaRowFor env (s.fs ++ [pyBasename f.src]) r)
              (fun r => mediaRowFor env s.fs r) rest
              (updateOrCreate s.media gid
                (fun _ => (⟨"imported/" ++ pyBasename f.src, f.mime,
                    f.description⟩ : MediaRow))
                ⟨"imported/" ++ pyBasename f.src, f.mime, f.description⟩)
              (mediaRowFor_extend env s.fs (pyBasename f.src) rest hnodup.1)
            refine ⟨?_, ?_⟩
            · rw [hcong]
              show upsertMany _ _ _
                (updateOrCreate s.media gid
                  (fun _ => (⟨"imported/" ++ pyBasename f.src, f.mime,
                      f.description⟩ : MediaRow))
                  ⟨"imported/" ++ pyBasename f.src, f.mime, f.description⟩) rest =
                upsertMany (fun r : MediaRec => truthy r.id)
                (fun r _ => mediaRowFor env s.fs r)
                (fun r => mediaRowFor env s.fs r)
                (match truthy x.id with
                 | none => s.media
                 | some g => updateOrCreate s.media g
                     (fun _ => mediaRowFor env s.fs x) (mediaRowFor env s.fs x)) rest
              rw [hid, hrow]
            · rw [mediaCopies_extend env s.fs (pyBasename f.src) rest hnodup.1]
              show (s.fs ++ [pyBasename f.src]) ++ mediaCopies env s.fs rest = _
              simp only [mediaCopies, List.filterMap_cons, hid, hf, if_neg hm,
                hfind]
              simp
          | none =>
            rw [mediaStep_notfound env s x gid f hid hf hm hfind]
            rw [ih _ hnodup.2]
            simp only [mediaUpsert]
            rw [MediaState.mk.injEq]
            have hrow : mediaRowFor env s.fs x =
                ⟨f.src, f.mime, f.description⟩ := by
              simp [mediaRowFor, hf, hm, hfind]
            refine ⟨?_, ?_⟩
            · show upsertMany _ _ _
                (updateOrCreate s.media gid
                  (fun _ => (⟨f.src, f.mime, f.description⟩ : MediaRow))
                  ⟨f.src, f.mime, f.description⟩) rest =
                upsertMany (fun r : MediaRec => truthy r.id)
                (fun r _ => mediaRowFor env s.fs r)
                (fun r => mediaRowFor env s.fs r)
                (match truthy x.id with
                 | none => s.media
                 | some g => updateOrCreate s.media g
                     (fun _ => mediaRowFor env s.fs x) (mediaRowFor env s.fs x)) rest
              rw [hid, hrow]
            · show s.fs ++ mediaCopies env s.fs rest = _
              simp only [mediaCopies, List.filterMap_cons, hid, hf, if_neg hm,
                hfind]

theorem mem_mediaCopies_basenames (env : Env) (fs : List String)
    (recs : List MediaRec) (b : String) (h : b ∈ mediaCopies env fs recs) :
    b ∈ mediaBasenames recs := by
  simp only [mediaCopies, List.mem_filterMap] at h
  obtain ⟨r, hr, hfn⟩ := h
  cases hid : truthy r.id with
  | none => rw [hid] at hfn; simp at hfn
  | some gid =>
    cases hf : r.file with
    | none => rw [hid, hf] at hfn; simp at hfn
    | some f =>
      rw [hid, hf] at hfn
      by_cases hm : pyBasename f.src ∈ fs
      · simp [hm] at hfn
      · cases hfind : findSource env f.src (pyBasename f.src) with
        | none => simp [hm, hfind] at hfn
        | some src =>
          simp only [if_neg hm, hfind] at hfn
          have hb : pyBasename f.src = b := by simpa using hfn
          rw [← hb]
          exact mem_mediaBasenames recs r gid f hr hid hf

theorem mem_mediaCopies_intro (env : Env) (fs : List String)
    (recs : List MediaRec) (r : MediaRec) (gid : String) (f : MediaFileRec)
    (src : String) (hr : r ∈ recs) (hid : truthy r.id = some gid)
    (hf : r.file = some f) (hm : pyBasename f.src ∉ fs)
    (hfind : findSource env f.src (pyBasename f.src) = some src) :
    pyBasename f.src ∈ mediaCopies env fs recs := by
  simp only [mediaCopies, List.mem_filterMap]
  refine ⟨r, hr, ?_⟩
  rw [hid, hf]
  simp [if_neg hm, hfind]

theorem not_mem_copies_of_notfound (env : Env) (fs : List String) :
    ∀ (recs : List MediaRec), (mediaBasenames recs).Nodup →
      ∀ r ∈ recs, ∀ (gid : String) (f : MediaFileRec),
        truthy r.id = some gid → r.file = some f →
        findSource env f.src (pyBasename f.src) = none →
        pyBasename f.src ∉ mediaCopies env fs recs := by
  intro recs
  induction recs with
  | nil => intro _ r hr; exact absurd hr (List.not_mem_nil r)
  | cons x rest ih =>
    intro hnodup r hr gid f hid hf hfind
    rcases List.mem_cons.mp hr with h1 | h2
    · subst h1
      have hcons : mediaCopies env fs (r :: rest) = mediaCopies env fs rest := by
        simp [mediaCopies, List.filterMap_cons, hid, hf, hfind]
      rw [hcons]
      rw [mediaBasenames_cons_active r rest gid f hid hf] at hnodup
      have hnb : pyBasename f.src ∉ mediaBasenames rest :=
        (List.nodup_cons.mp hnodup).1
      intro hmem
      exact hnb (mem_mediaCopies_basenames env fs rest _ hmem)
    · have hnodup' : (mediaBasenames rest).Nodup := by
        cases hid' : truthy x.id with
        | none =>
          rw [mediaBasenames_cons_inactive x rest (Or.inl hid')] at hnodup
          exact hnodup
        | some g =>
          cases hf' : x.file with
          | none =>
            rw [mediaBasenames_cons_inactive x rest (Or.inr hf')] at hnodup
            exact hnodup
          | some f' =>
            rw [mediaBasenames_cons_active x rest g f' hid' hf'] at hnodup
            exact (List.nodup_cons.mp hnodup).2
      have ihres := ih hnodup' r h2 gid f hid hf hfind
      cases hid' : truthy x.id with
      | none =>
        have hcons : mediaCopies env fs (x :: rest) = mediaCopies env fs rest := by
          simp [mediaCopies, List.filterMap_cons, hid']
        rw [hcons]; exact ihres
      | some g =>
        cases hf' : x.file with
        | none =>
          have hcons : mediaCopies env fs (x :: rest) = mediaCopies env fs rest := by
            simp [mediaCopies, List.filterMap_cons, hid', hf']
          rw [hcons]; exact ihres
        | some f' =>
          have hbn' : pyBasename f'.src ∉ mediaBasenames rest := by
            rw [mediaBasenames_cons_active x rest g f' hid' hf'] at hnodup
            exact (List.nodup_cons.mp hnodup).1
          have hbnmem : pyBasename f.src ∈ mediaBasenames rest :=
            mem_mediaBasenames rest r gid f h2 hid hf
          have hne : ¬ pyBasename f.src = pyBasename f'.src :=
            fun hh => hbn' (hh ▸ hbnmem)
          intro hmem
          simp only [mediaCopies, List.filterMap_cons, hid', hf'] at hmem
          by_cases hmfs : pyBasename f'.src ∈ fs
          · rw [if_pos hmfs] at hmem
            exact ihres (by simpa [mediaCopies] using hmem)
          · rw [if_neg hmfs] at hmem
            cases hfind' : findSource env f'.src (pyBasename f'.src) with
            | none =>
              rw [hfind'] at hmem
              exact ihres (by simpa [mediaCopies] using hmem)
            | some s' =>
              rw [hfind'] at hmem
              rcases List.mem_cons.mp hmem with hh | hh
              · exact hne hh
              · exact ihres (by simpa [mediaCopies] using hh)

theorem mediaRowFor_stable (env : Env) (fs : List String)
    (recs : List MediaRec) (hnodup : (mediaBasenames recs).Nodup) :
    ∀ r ∈ recs, (truthy r.id).isSome →
      mediaRowFor env (fs ++ mediaCopies env fs recs) r =
        mediaRowFor env fs r := by
  intro r hr hsome
  cases hf : r.file with
  | none => simp [mediaRowFor, hf]
  | some f =>
    cases hid : truthy r.id with
    | none => rw [hid] at hsome; simp at hsome
    | some gid =>
      by_cases hm : pyBasename f.src ∈ fs
      · have hmem : pyBasename f.src ∈ fs ++ mediaCopies env fs recs :=
          List.mem_append_left _ hm
        simp [mediaRowFor, hf, hm, hmem]
      · cases hfind : findSource env f.src (pyBasename f.src) with
        | some src =>
          have hmem : pyBasename f.src ∈ fs ++ mediaCopies env fs recs :=
            List.mem_append_right _
              (mem_mediaCopies_intro env fs recs r gid f src hr hid hf hm hfind)
          simp [mediaRowFor, hf, hm, hmem, hfind]
        | none =>
          have hnm : pyBasename f.src ∉ fs ++ mediaCopies env fs recs := by
            intro hmem
            rcases List.mem_append.mp hmem with h1 | h2
            · exact hm h1
            · exact not_mem_copies_of_notfound env fs recs hnodup r hr gid f
                hid hf hfind h2
          simp [mediaRowFor, hf, hm, hnm, hfind]

theorem mediaCopies_saturated (env : Env) (fs : List String)
    (recs : List MediaRec) :
    mediaCopies env (fs ++ mediaCopies env fs recs) recs = [] := by
  rw [mediaCopies, List.filterMap_eq_nil]
  intro r hr
  cases hid : truthy r.id with
  | none => simp
  | some gid =>
    cases hf : r.file with
    | none => simp
    | some f =>
      by_cases hm : pyBasename f.src ∈ fs
      · have hmem : pyBasename f.src ∈ fs ++ mediaCopies env fs recs :=
          List.mem_append_left _ hm
        simp [hmem]
      · cases hfind : findSource env f.src (pyBasename f.src) with
        | some src =>
          have hmem : pyBasename f.src ∈ fs ++ mediaCopies env fs recs :=
            List.mem_append_right _
              (mem_mediaCopies_intro env fs recs r gid f src hr hid hf hm hfind)
          simp [hmem]
        | none => simp [hfind]

/-- Running the media stage a second time on its own output changes
nothing: the rows it would store are the same and nothing new is copied. -/
theorem mediaFold_stable (env : Env) (recs : List MediaRec) (s : MediaState)
    (hnodup : (mediaBasenames recs).Nodup)
    (hkeys : (keysOf s.media).Nodup) :
    mediaFold recs env (mediaFold recs env s) = mediaFold recs env s := by
  rw [mediaFold_char env recs s hnodup]
  rw [mediaFold_char env recs _ hnodup]
  rw [MediaState.mk.injEq]
  refine ⟨?_, ?_⟩
  · show upsertMany (fun r : MediaRec => truthy r.id)
      (fun r _ => mediaRowFor env (s.fs ++ mediaCopies env s.fs recs) r)
      (fun r => mediaRowFor env (s.fs ++ mediaCopies env s.fs recs) r)
      (upsertMany (fun r : MediaRec => truthy r.id)
        (fun r _ => mediaRowFor env s.fs r) (fun r => mediaRowFor env s.fs r)
        s.media recs) recs =
      upsertMany (fun r : MediaRec => truthy r.id)
      (fun r _ => mediaRowFor env s.fs r) (fun r => mediaRowFor env s.fs r)
      s.media recs
    rw [upsertMany_congr (fun r : MediaRec => truthy r.id)
      (fun r _ => mediaRowFor env (s.fs ++ mediaCopies env s.fs recs) r)
      (fun r _ => mediaRowFor env s.fs r)
      (fun r => mediaRowFor env (s.fs ++ mediaCopies env s.fs recs) r)
      (fun r => mediaRowFor env s.fs r) recs _
      (fun x hx hs => by
        have h := mediaRowFor_stable env s.fs recs hnodup x hx (by simpa using hs)
        exact ⟨funext (fun _ => h), h⟩)]
    exact upsertMany_idem (fun r : MediaRec => truthy r.id)
      (fun r _ => mediaRowFor env s.fs r) (fun r => mediaRowFor env s.fs r)
      (fun _ => ()) ⟨"", "", ""⟩ (fun _ _ => rfl) (fun x row row' _ => rfl)
      (fun x => rfl) recs s.media hkeys
  · show (s.fs ++ mediaCopies env s.fs recs) ++
      mediaCopies env (s.fs ++ mediaCopies env s.fs recs) recs = _
    rw [mediaCopies_saturated]
    simp

/-! ## Person-media association: closed form and idempotence -/

def pmAdds (media : List MediaRec) (pid : String) (refs : List String)
    (pm : List (String × String)) : List (String × String) :=
  refs.foldl (fun pm h =>
    match mediaIdByHandle media h with
    | none => pm
    | some mid => if (pid, mid) ∈ pm then pm else pm ++ [(pid, mid)]) pm

theorem pmStep_empty (media : List MediaRec) (pm : List (String × String))
    (p : PersonRec) (h : p.objRefs.isEmpty = true) :
    pmStep media pm p = pm := by
  simp [pmStep, h]

theorem pmStep_active (media : List MediaRec) (pm : List (String × String))
    (p : PersonRec) (h : ¬ p.objRefs.isEmpty = true) :
    pmStep media pm p =
      pmAdds media (personGid p) p.objRefs
        (pm.filter (fun x => ¬ x.1 = personGid p)) := by
  simp [pmStep, pmAdds, h]

theorem pmAdds_append (media : List MediaRec) (pid : String) :
    ∀ (refs : List String) (pm acc : List (String × String)),
      (∀ x ∈ pm, ¬ x.1 = pid) →
      pmAdds media pid refs (pm ++ acc) = pm ++ pmAdds media pid refs acc := by
  intro refs
  induction refs with
  | nil => intro pm acc _; rfl
  | cons h refs ih =>
    intro pm acc hpm
    show pmAdds media pid refs
      (match mediaIdByHandle media h with
       | none => pm ++ acc
       | some mid => if (pid, mid) ∈ pm ++ acc then pm ++ acc
           else (pm ++ acc) ++ [(pid, mid)]) =
      pm ++ pmAdds media pid refs
      (match mediaIdByHandle media h with
       | none => acc
       | some mid => if (pid, mid) ∈ acc then acc else acc ++ [(pid, mid)])
    cases hmid : mediaIdByHandle media h with
    | none =>
      show pmAdds media pid refs (pm ++ acc) = pm ++ pmAdds media pid refs acc
      exact ih pm acc hpm
    | some mid =>
      show pmAdds media pid refs
        (if (pid, mid) ∈ pm ++ acc then pm ++ acc
         else (pm ++ acc) ++ [(pid, mid)]) =
        pm ++ pmAdds media pid refs
        (if (pid, mid) ∈ acc then acc else acc ++ [(pid, mid)])
      have hiff : (pid, mid) ∈ pm ++ acc ↔ (pid, mid) ∈ acc := by
        rw [List.mem_append]
        constructor
        · rintro (h1 | h2)
          · exact absurd rfl (hpm _ h1)
          · exact h2
        · exact Or.inr
      by_cases hmem : (pid, mid) ∈ acc
      · rw [if_pos hmem, if_pos (hiff.mpr hmem)]
        exact ih pm acc hpm
      · rw [if_neg hmem, if_neg (fun hh => hmem (hiff.mp hh)),
          List.append_assoc]
        exact ih pm (acc ++ [(pid, mid)]) hpm

def pmBlock (media : List MediaRec) (pid : String) (refs : List String) :
    List (String × String) :=
  pmAdds media pid refs []

theorem pmAdds_pid (media : List MediaRec) (pid : String) :
    ∀ (refs : List String) (acc : List (String × String)),
      (∀ y ∈ acc, y.1 = pid) → ∀ x ∈ pmAdds media pid refs acc, x.1 = pid := by
  intro refs
  induction refs with
  | nil => intro acc hacc x hx; exact hacc x hx
  | cons h refs ih =>
    intro acc hacc x hx
    replace hx : x ∈ pmAdds media pid refs
      (match mediaIdByHandle media h with
       | none => acc
       | some mid => if (pid, mid) ∈ acc then acc else acc ++ [(pid, mid)]) := hx
    cases hmid : mediaIdByHandle media h with
    | none =>
      rw [hmid] at hx
      replace hx : x ∈ pmAdds media pid refs acc := hx
      exact ih acc hacc x hx
    | some mid =>
      rw [hmid] at hx
      replace hx : x ∈ pmAdds media pid refs
        (if (pid, mid) ∈ acc then acc else acc ++ [(pid, mid)]) := hx
      by_cases hmem : (pid, mid) ∈ acc
      · rw [if_pos hmem] at hx
        exact ih acc hacc x hx
      · rw [if_neg hmem] at hx
        refine ih _ ?_ x hx
        intro y hy
        rcases List.mem_append.mp hy with h1 | h2
        · exact hacc y h1
        · have : y = (pid, mid) := by simpa using h2
          rw [this]

def pmActive (people : List PersonRec) : List String :=
  people.filterMap (fun p =>
    if p.objRefs.isEmpty then none else some (personGid p))

def pmOut (media : List MediaRec) (people : List PersonRec) :
    List (String × String) :=
  match people with
  | [] => []
  | p :: rest =>
    if p.objRefs.isEmpty then pmOut media rest
    else
      (if personGid p ∈ pmActive rest then []
       else pmBlock media (personGid p) p.objRefs) ++ pmOut media rest

theorem pmActive_cons_empty (p : PersonRec) (rest : List PersonRec)
    (h : p.objRefs.isEmpty = true) :
    pmActive (p :: rest) = pmActive rest := by
  have h' : p.objRefs = [] := by simpa using h
  simp [pmActive, List.filterMap_cons, h, h']

theorem pmActive_cons_active (p : PersonRec) (rest : List PersonRec)
    (h : ¬ p.objRefs.isEmpty = true) :
    pmActive (p :: rest) = personGid p :: pmActive rest := by
  have h' : ¬ p.objRefs = [] := by simpa using h
  simp [pmActive, List.filterMap_cons, h, h']

theorem pmOut_cons_empty (media : List MediaRec) (p : PersonRec)
    (rest : List PersonRec) (h : p.objRefs.isEmpty = true) :
    pmOut media (p :: rest) = pmOut media rest := by
  have h' : p.objRefs = [] := by simpa using h
  simp [pmOut, h, h']

theorem pmOut_cons_active (media : List MediaRec) (p : PersonRec)
    (rest : List PersonRec) (h : ¬ p.objRefs.isEmpty = true) :
    pmOut media (p :: rest) =
      (if personGid p ∈ pmActive rest then []
       else pmBlock media (personGid p) p.objRefs) ++ pmOut media rest := by
  have h' : ¬ p.objRefs = [] := by simpa using h
  simp [pmOut, h, h']

theorem pmFold_closed (media : List MediaRec) :
    ∀ (people : List PersonRec) (pm : List (String × String)),
      pmFold media people pm =
        pm.filter (fun x => ¬ x.1 ∈ pmActive people) ++ pmOut media people := by
  intro people
  induction people with
  | nil =>
    intro pm
    show pm = _
    have h1 : pmOut media [] = [] := rfl
    rw [h1, List.append_nil]
    symm
    rw [List.filter_eq_self]
    intro c _
    simp [pmActive]
  | cons p rest ih =>
    intro pm
    show pmFold media rest (pmStep media pm p) = _
    by_cases hobj : p.objRefs.isEmpty = true
    · rw [pmStep_empty media pm p hobj, ih,
        pmActive_cons_empty p rest hobj, pmOut_cons_empty media p rest hobj]
    · rw [pmStep_active media pm p hobj]
      have hfil : ∀ x ∈ pm.filter (fun x => ¬ x.1 = personGid p),
          ¬ x.1 = personGid p := by
        intro x hx
        have := List.of_mem_filter hx
        simpa using this
      have hsplit : pm.filter (fun x => ¬ x.1 = personGid p) ++
          pmBlock media (personGid p) p.objRefs =
          pmAdds media (personGid p) p.objRefs
            (pm.filter (fun x => ¬ x.1 = personGid p)) := by
        rw [pmBlock, ← pmAdds_append media (personGid p) p.objRefs _ [] hfil,
          List.append_nil]
      rw [← hsplit, ih, List.filter_append, List.filter_filter,
        pmActive_cons_active p rest hobj, pmOut_cons_active media p rest hobj]
      have h1 : (pm.filter fun c =>
          decide (¬ c.1 ∈ pmActive rest) && decide (¬ c.1 = personGid p)) =
          pm.filter (fun c => ¬ c.1 ∈ personGid p :: pmActive rest) := by
        apply List.filter_congr
        intro c _
        simp only [List.mem_cons, not_or]
        by_cases e1 : c.1 ∈ pmActive rest <;> by_cases e2 : c.1 = personGid p <;>
          simp [e1, e2]
      rw [h1]
      have h2 : ((pmBlock media (personGid p) p.objRefs).filter
          (fun c => ¬ c.1 ∈ pmActive rest)) =
          (if personGid p ∈ pmActive rest then []
           else pmBlock media (personGid p) p.objRefs) := by
        by_cases hmem : personGid p ∈ pmActive rest
        · rw [if_pos hmem, List.filter_eq_nil_iff]
          intro c hc
          have hcp : c.1 = personGid p :=
            pmAdds_pid media (personGid p) p.objRefs [] (by simp) c hc
          simp [hcp, hmem]
        · rw [if_neg hmem, List.filter_eq_self]
          intro c hc
          have hcp : c.1 = personGid p :=
            pmAdds_pid media (personGid p) p.objRefs [] (by simp) c hc
          simp [hcp, hmem]
      rw [h2, List.append_assoc]

theorem pmOut_pid (media : List MediaRec) :
    ∀ (people : List PersonRec) (x : String × String),
      x ∈ pmOut media people → x.1 ∈ pmActive people := by
  intro people
  induction people with
  | nil => intro x hx; simp [pmOut] at hx
  | cons p rest ih =>
    intro x hx
    by_cases hobj : p.objRefs.isEmpty = true
    · rw [pmOut_cons_empty media p rest hobj] at hx
      rw [pmActive_cons_empty p rest hobj]
      exact ih x hx
    · rw [pmOut_cons_active media p rest hobj] at hx
      rw [pmActive_cons_active p rest hobj]
      rcases List.mem_append.mp hx with h1 | h2
      · by_cases hmem : personGid p ∈ pmActive rest
        · rw [if_pos hmem] at h1
          simp at h1
        · rw [if_neg hmem] at h1
          have : x.1 = personGid p :=
            pmAdds_pid media (personGid p) p.objRefs [] (by simp) x h1
          rw [this]
          exact List.mem_cons_self _ _
      · exact List.mem_cons_of_mem _ (ih x h2)

theorem pmFold_idem (media : List MediaRec) (people : List PersonRec)
    (pm : List (String × String)) :
    pmFold media people (pmFold media people pm) = pmFold media people pm := by
  rw [pmFold_closed, pmFold_closed, List.filter_append]
  have h1 : ((pmOut media people).filter
      (fun x => ¬ x.1 ∈ pmActive people)) = [] := by
    rw [List.filter_eq_nil_iff]
    intro x hx
    simp only [decide_eq_true_eq, Decidable.not_not]
    exact pmOut_pid media people x hx
  rw [h1, List.filter_filter, List.append_nil]
  congr 1
  apply List.filter_congr
  intro c _
  cases hd : decide (¬ c.1 ∈ pmActive people) <;> simp [hd]

/-! ## One full run, stage by stage -/

def eventsOut (input : GrampsInput) (t : List (String × EventRow)) :
    List (String × EventRow) :=
  eventsLinkFold input.events input.people (eventsFold input.events input.places t)

/-- What one run writes into each table, as a function of the starting
tables: the pipeline's stages are table-local, so `importOnce` factors into
independent per-table folds plus the final derived-field sweep. -/
def importSpec (env : Env) (input : GrampsInput) (db : DB) : Option DB :=
  (placesFold input.places db.places).bind (fun P =>
  (famFold input.families input.people ⟨db.families, db.familyChildren⟩).bind (fun F =>
  (assocNotesFold input (notesFold input.notes db.notes)).map (fun N =>
    { places := P
      people := sweep (eventsOut input db.events) []
        (peopleFold input.people db.people)
      families := F.families
      events := eventsOut input db.events
      notes := N
      media := (mediaFold input.media env ⟨db.media, db.importedFiles⟩).media
      familyChildren := F.children
      personMedia := pmFold input.media input.people db.personMedia
      importedFiles := (mediaFold input.media env ⟨db.media, db.importedFiles⟩).fs })))

theorem importOnce_eq (env : Env) (input : GrampsInput) (db : DB) :
    importOnce env input db = importSpec env input db := by
  obtain ⟨pl, pe, fa, ev, no, me, fc, pm, imf⟩ := db
  rw [importOnce, importSpec]
  cases hP : placesFold input.places pl with
  | none => simp [importPlaces, hP]
  | some P =>
    simp only [importPlaces, hP, Option.map_some, Option.bind_some]
    cases hF : famFold input.families input.people ⟨fa, fc⟩ with
    | none => simp [importPeople, importFamilies, hF]
    | some F =>
      simp only [importPeople, importFamilies, hF, Option.map_some,
        Option.bind_some]
      cases hN : assocNotesFold input (notesFold input.notes no) with
      | none => simp [importEvents, importNotes, associateNotes, hN]
      | some N =>
        simp [importPlaces, importPeople, importFamilies, importEvents,
          importNotes, associateNotes, importMedia, updateDates, eventsOut,
          hP, hF, hN]

/-! ## Second-run stability of the events stage -/

def evDflt : EventRow := ⟨"", none, none, "", none, none⟩

theorem applyEventDefaults_det (places : List PlaceRec) (r : EventRec)
    (row row' : EventRow)
    (h : (row.person, row.family) = (row'.person, row'.family)) :
    applyEventDefaults places r row = applyEventDefaults places r row' := by
  obtain ⟨t1, d1, p1, de1, pe1, fa1⟩ := row
  obtain ⟨t2, d2, p2, de2, pe2, fa2⟩ := row'
  simp only [Prod.mk.injEq] at h
  simp [applyEventDefaults, h.1, h.2]

theorem alook_eventsFold (recs : List EventRec) (places : List PlaceRec)
    (t : List (String × EventRow)) (k : String) :
    alook (eventsFold recs places t) k =
      match lastRecFor (fun r => truthy r.id) recs k with
      | none => alook t k
      | some x => some (applyEventDefaults places x ((alook t k).getD evDflt)) := by
  rw [eventsFold_eq_upsertMany,
    alook_upsertMany (fun r => truthy r.id) (applyEventDefaults places)
      (newEventRow places) (fun row => (row.person, row.family)) evDflt
      (fun x row => rfl) (applyEventDefaults_det places) (fun x => rfl) recs t k]
  cases lastRecFor (fun r => truthy r.id) recs k <;> rfl

theorem alook_eventsOut (input : GrampsInput) (t : List (String × EventRow))
    (k : String) :
    alook (eventsOut input t) k =
      match lastOpFor (eventLinkOps input.events input.people) k with
      | none => alook (eventsFold input.events input.places t) k
      | some v =>
        (alook (eventsFold input.events input.places t) k).map (setEvPerson v) := by
  rw [eventsOut, eventsLinkFold_eq_applyLinks,
    alook_applyLinks setEvPerson (fun v v' row => rfl) _ _ k]

theorem eventsOut_keys (input : GrampsInput) (t : List (String × EventRow)) :
    keysOf (eventsOut input t) =
      keysOf (eventsFold input.events input.places t) := by
  rw [eventsOut, eventsLinkFold_eq_applyLinks, keys_applyLinks]

/-- Re-running the events stage on its own output is the identity: the
upsert rewrites the same defaults and the link pass re-sets the same person
foreign keys. -/
theorem eventsOut_stable (input : GrampsInput) (t : List (String × EventRow))
    (hn : (keysOf t).Nodup) :
    eventsOut input (eventsOut input t) = eventsOut input t := by
  have hkeysE : keysOf (eventsFold input.events input.places (eventsOut input t)) =
      keysOf (eventsOut input t) := by
    rw [eventsFold_eq_upsertMany]
    apply keys_upsertMany_of_mem
    intro x hx gid hgid
    rw [eventsOut_keys, eventsFold_eq_upsertMany]
    exact key_mem_upsertMany _ _ _ input.events t x gid hx hgid
  have hkeys : keysOf (eventsOut input (eventsOut input t)) =
      keysOf (eventsOut input t) := by
    rw [eventsOut_keys, hkeysE]
  have hnodup1 : (keysOf (eventsOut input t)).Nodup := by
    rw [eventsOut_keys, eventsFold_eq_upsertMany]
    exact nodup_keys_upsertMany _ _ _ input.events t hn
  refine table_ext _ _ hkeys (by rw [hkeys]; exact hnodup1) ?_
  intro k
  rw [alook_eventsOut, alook_eventsFold, alook_eventsOut, alook_eventsFold]
  cases ho : lastOpFor (eventLinkOps input.events input.people) k with
  | none =>
    cases hr : lastRecFor (fun r => truthy r.id) input.events k with
    | none => rfl
    | some x =>
      cases hb : alook t k <;>
        simp [applyEventDefaults, evDflt]
  | some v =>
    cases hr : lastRecFor (fun r => truthy r.id) input.events k with
    | none =>
      cases hb : alook t k <;> simp [setEvPerson]
    | some x =>
      cases hb : alook t k <;>
        simp [applyEventDefaults, setEvPerson, evDflt]

/-! ## Second-run stability of the notes stages -/

def noteDflt : NoteRow := ⟨"", none, none, none⟩

/-- The notes table after `_import_notes` and `_associate_notes`, as one
function. -/
def notesOut (input : GrampsInput) (t : List (String × NoteRow)) :
    List (String × NoteRow) :=
  applyLinks setNoteEvent
    (applyLinks setNoteFamily
      (applyLinks setNotePerson (notesFold input.notes t)
        (notePersonOps input.notes input.people))
      (noteFamilyOps input.notes input.families))
    (noteEventOps input.notes input.events)

theorem notesUpd_det (r : NoteRec) (row row' : NoteRow)
    (h : (row.person, row.family, row.event) =
      (row'.person, row'.family, row'.event)) :
    ({ row with text := r.text } : NoteRow) = { row' with text := r.text } := by
  obtain ⟨t1, p1, f1, e1⟩ := row
  obtain ⟨t2, p2, f2, e2⟩ := row'
  simp only [Prod.mk.injEq] at h
  simp [h.1, h.2.1, h.2.2]

theorem alook_notesFold (recs : List NoteRec) (t : List (String × NoteRow))
    (k : String) :
    alook (notesFold recs t) k =
      match lastRecFor (fun r => truthy r.id) recs k with
      | none => alook t k
      | some x => some { (alook t k).getD noteDflt with text := x.text } := by
  rw [notesFold_eq_upsertMany,
    alook_upsertMany (fun r => truthy r.id)
      (fun r row => { row with text := r.text })
      (fun r => ⟨r.text, none, none, none⟩)
      (fun row => (row.person, row.family, row.event)) noteDflt
      (fun x row => rfl) notesUpd_det (fun x => rfl) recs t k]
  cases lastRecFor (fun r => truthy r.id) recs k <;> rfl

theorem notesOut_keys (input : GrampsInput) (t : List (String × NoteRow)) :
    keysOf (notesOut input t) = keysOf (notesFold input.notes t) := by
  rw [notesOut, keys_applyLinks, keys_applyLinks, keys_applyLinks]

/-- Re-running the notes stages on their own output is the identity. -/
theorem notesOut_stable (input : GrampsInput) (t : List (String × NoteRow))
    (hn : (keysOf t).Nodup) :
    notesOut input (notesOut input t) = notesOut input t := by
  have hkeysE : keysOf (notesFold input.notes (notesOut input t)) =
      keysOf (notesOut input t) := by
    rw [notesFold_eq_upsertMany]
    apply keys_upsertMany_of_mem
    intro x hx gid hgid
    rw [notesOut_keys, notesFold_eq_upsertMany]
    exact key_mem_upsertMany _ _ _ input.notes t x gid hx hgid
  have hkeys : keysOf (notesOut input (notesOut input t)) =
      keysOf (notesOut input t) := by
    rw [notesOut_keys, hkeysE]
  have hnodup1 : (keysOf (notesOut input t)).Nodup := by
    rw [notesOut_keys, notesFold_eq_upsertMany]
    exact nodup_keys_upsertMany _ _ _ input.notes t hn
  refine table_ext _ _ hkeys (by rw [hkeys]; exact hnodup1) ?_
  intro k
  simp only [notesOut]
  simp only [alook_applyLinks setNoteEvent (fun _ _ _ => rfl),
    alook_applyLinks setNoteFamily (fun _ _ _ => rfl),
    alook_applyLinks setNotePerson (fun _ _ _ => rfl),
    alook_notesFold]
  cases he : lastOpFor (noteEventOps input.notes input.events) k <;>
    cases hf : lastOpFor (noteFamilyOps input.notes input.families) k <;>
    cases hp : lastOpFor (notePersonOps input.notes input.people) k <;>
    cases hr : lastRecFor (fun r => truthy r.id) input.notes k <;>
    cases hb : alook t k <;>
    simp [setNoteEvent, setNoteFamily, setNotePerson, noteDflt]

/-! ## Second-run stability of people, places, families, media -/

theorem sweep_core (evs : List (String × EventRow)) (updated : List String)
    (people : List (String × PersonRow)) (k : String) :
    (alook (sweep evs updated people) k).map coreOf =
      (alook people k).map coreOf := by
  by_cases hm : k ∈ updated
  · rw [sweep_alook_of_mem evs updated people k hm]
  · rw [sweep_alook_of_notmem evs updated people k hm]
    cases halook : alook people k with
    | none => rfl
    | some row =>
      cases hfn : firstNeeding evs k row <;> simp [halook, hfn, coreOf_evApply]

def pDflt : PersonRow := ⟨"", "", "", none, none, none, false⟩

theorem applyPersonDefaults_det (r : PersonRec) (row row' : PersonRow)
    (h : (row.birth_date, row.death_date, row.is_deceased) =
      (row'.birth_date, row'.death_date, row'.is_deceased)) :
    applyPersonDefaults r row = applyPersonDefaults r row' := by
  obtain ⟨f1, l1, g1, u1, b1, d1, i1⟩ := row
  obtain ⟨f2, l2, g2, u2, b2, d2, i2⟩ := row'
  simp only [Prod.mk.injEq] at h
  simp [applyPersonDefaults, h.1, h.2.1, h.2.2]

theorem alook_peopleFold (recs : List PersonRec)
    (t : List (String × PersonRow)) (k : String) :
    alook (peopleFold recs t) k =
      match lastRecFor (fun r => some (personGid r)) recs k with
      | none => alook t k
      | some x => some (applyPersonDefaults x ((alook t k).getD pDflt)) := by
  rw [peopleFold_eq_upsertMany,
    alook_upsertMany (fun r => some (personGid r)) applyPersonDefaults
      newPersonRow (fun row => (row.birth_date, row.death_date, row.is_deceased))
      pDflt (fun x row => rfl) applyPersonDefaults_det (fun x => rfl) recs t k]
  cases lastRecFor (fun r => some (personGid r)) recs k <;> rfl

theorem people_keys_stable (ps : List PersonRec)
    (evs1 evs2 : List (String × EventRow)) (t : List (String × PersonRow)) :
    keysOf (sweep evs2 [] (peopleFold ps (sweep evs1 [] (peopleFold ps t)))) =
      keysOf (sweep evs1 [] (peopleFold ps t)) := by
  rw [keysOf_sweep evs2 [] (peopleFold ps (sweep evs1 [] (peopleFold ps t)))]
  have h1 : keysOf (peopleFold ps (sweep evs1 [] (peopleFold ps t))) =
      keysOf (sweep evs1 [] (peopleFold ps t)) := by
    rw [peopleFold_eq_upsertMany]
    apply keys_upsertMany_of_mem
    intro x hx gid hgid
    rw [keysOf_sweep, peopleFold_eq_upsertMany]
    exact key_mem_upsertMany _ _ _ ps t x gid hx hgid
  rw [h1]

theorem people_core_stable (ps : List PersonRec)
    (evs1 evs2 : List (String × EventRow)) (t : List (String × PersonRow))
    (k : String) :
    (alook (sweep evs2 [] (peopleFold ps (sweep evs1 [] (peopleFold ps t)))) k).map
        coreOf =
      (alook (sweep evs1 [] (peopleFold ps t)) k).map coreOf := by
  rw [sweep_core evs2 [] (peopleFold ps (sweep evs1 [] (peopleFold ps t))) k,
    alook_peopleFold ps (sweep evs1 [] (peopleFold ps t)) k]
  cases hr : lastRecFor (fun r => some (personGid r)) ps k with
  | none => rfl
  | some x =>
    rw [sweep_core evs1 [] (peopleFold ps t) k, alook_peopleFold ps t k, hr]
    cases hb : alook t k <;> simp [coreOf, applyPersonDefaults]

theorem placesFold_stable (recs : List PlaceRec)
    (t t1 t2 : List (String × PlaceRow)) (hn : (keysOf t).Nodup)
    (h1 : placesFold recs t = some t1) (h2 : placesFold recs t1 = some t2) :
    t2 = t1 := by
  have e1 := placesFold_some recs t t1 h1
  have e2 := placesFold_some recs t1 t2 h2
  rw [e2, e1]
  exact upsertMany_idem (fun r : PlaceRec => r.id)
    (fun (r : PlaceRec) (_ : PlaceRow) => (⟨r.name⟩ : PlaceRow))
    (fun (r : PlaceRec) => (⟨r.name⟩ : PlaceRow)) (fun _ => ())
    (⟨""⟩ : PlaceRow) (fun _ _ => rfl)
    (fun _ _ _ _ => rfl) (fun _ => rfl) recs t hn

theorem famFold_stable (recs : List FamilyRec) (people : List PersonRec)
    (s F1 F2 : FamState) (hn : (keysOf s.families).Nodup)
    (h1 : famFold recs people s = some F1)
    (h2 : famFold recs people F1 = some F2) : F2 = F1 := by
  obtain ⟨e1f, e1c⟩ := famFold_some people recs s F1 h1
  obtain ⟨e2f, e2c⟩ := famFold_some people recs F1 F2 h2
  have hf : F2.families = F1.families := by
    rw [e2f, e1f]
    exact upsertMany_idem (fun r : FamilyRec => truthy r.id)
      (fun r _ => famRowFor people r) (fun r => famRowFor people r)
      (fun _ => ()) (⟨none, none⟩ : FamilyRow) (fun _ _ => rfl)
      (fun _ _ _ _ => rfl) (fun _ => rfl) recs s.families hn
  have hc : F2.children = F1.children := by
    rw [e2c, e1c]
    exact famChildrenSpec_idem people recs s.children
  obtain ⟨ff2, cc2⟩ := F2
  obtain ⟨ff1, cc1⟩ := F1
  simp only at hf hc
  rw [hf, hc]

theorem importSpec_some_elim (env : Env) (input : GrampsInput) (db out : DB)
    (h : importSpec env input db = some out) :
    ∃ P F N, placesFold input.places db.places = some P ∧
      famFold input.families input.people ⟨db.families, db.familyChildren⟩ = some F ∧
      assocNotesFold input (notesFold input.notes db.notes) = some N ∧
      out = { places := P
              people := sweep (eventsOut input db.events) []
                (peopleFold input.people db.people)
              families := F.families
              events := eventsOut input db.events
              notes := N
              media := (mediaFold input.media env ⟨db.media, db.importedFiles⟩).media
              familyChildren := F.children
              personMedia := pmFold input.media input.people db.personMedia
              importedFiles :=
                (mediaFold input.media env ⟨db.media, db.importedFiles⟩).fs } := by
  rw [importSpec] at h
  cases hP : placesFold input.places db.places with
  | none => rw [hP] at h; simp at h
  | some P =>
    rw [hP] at h
    cases hF : famFold input.families input.people ⟨db.families, db.familyChildren⟩ with
    | none => rw [hF] at h; simp at h
    | some F =>
      rw [hF] at h
      cases hN : assocNotesFold input (notesFold input.notes db.notes) with
      | none => rw [hN] at h; simp at h
      | some N =>
        rw [hN] at h
        simp only [Option.some_bind, Option.map_some, Option.map_some',
          Option.some.injEq] at h
        exact ⟨P, F, N, rfl, rfl, rfl, h.symm⟩

/-- C1 (amended): with both runs succeeding and the starting tables free of
duplicate keys (the database's unique `gramps_id` constraint guarantees
this), the second run reproduces the first run's places, families,
family-child rows, events, notes and person-media links exactly, and for
people it reproduces the key set and every import-owned field (names,
gender, source change time).  Exact idempotence still fails, in two ways
the counterexample demonstrates: the derived person fields (`birth_date`,
`death_date`, `is_deceased`) may differ after the second run and need not
ever stabilise, because the sweep applies at most one changing event per
person per run; and the media rows and copied-file listing are reproduced
exactly only when no two media records share a base file name — with a
shared basename, a record whose own source is unresolvable stores its
fallback path on the first run and flips to the shared `imported/` path on
the second. -/
theorem C1_second_run_converges (env : Env) (input : GrampsInput)
    (db0 db1 db2 : DB)
    (hpl : (keysOf db0.places).Nodup) (hfa : (keysOf db0.families).Nodup)
    (hev : (keysOf db0.events).Nodup) (hno : (keysOf db0.notes).Nodup)
    (h1 : importOnce env input db0 = some db1)
    (h2 : importOnce env input db1 = some db2) :
    db2.places = db1.places ∧ db2.families = db1.families ∧
    db2.familyChildren = db1.familyChildren ∧ db2.events = db1.events ∧
    db2.notes = db1.notes ∧ db2.personMedia = db1.personMedia ∧
    keysOf db2.people = keysOf db1.people ∧
    (∀ k, (alook db2.people k).map coreOf = (alook db1.people k).map coreOf) ∧
    ((keysOf db0.media).Nodup → (mediaBasenames input.media).Nodup →
      db2.media = db1.media ∧ db2.importedFiles = db1.importedFiles) := by
  rw [importOnce_eq] at h1 h2
  obtain ⟨P1, F1, N1, hP1, hF1, hN1, hdb1⟩ := importSpec_some_elim env input db0 db1 h1
  subst hdb1
  obtain ⟨P2, F2, N2, hP2, hF2, hN2, hdb2⟩ := importSpec_some_elim env input _ db2 h2
  subst hdb2
  have hFst : F2 = F1 := famFold_stable input.families input.people
    ⟨db0.families, db0.familyChildren⟩ F1 F2 hfa hF1 hF2
  refine ⟨?_, ?_, ?_, ?_, ?_, ?_, ?_, ?_, ?_⟩
  · exact placesFold_stable input.places db0.places P1 P2 hpl hP1 hP2
  · exact congrArg FamState.families hFst
  · exact congrArg FamState.children hFst
  · exact eventsOut_stable input db0.events hev
  · have e1 : N1 = notesOut input db0.notes := assocNotesFold_some input _ N1 hN1
    have e2 : N2 = notesOut input N1 := assocNotesFold_some input _ N2 hN2
    rw [e2, e1]
    exact notesOut_stable input db0.notes hno
  · exact pmFold_idem input.media input.people db0.personMedia
  · exact people_keys_stable input.people (eventsOut input db0.events)
      (eventsOut input (eventsOut input db0.events)) db0.people
  · intro k
    exact people_core_stable input.people (eventsOut input db0.events)
      (eventsOut input (eventsOut input db0.events)) db0.people k
  · intro hme hmb
    have hmed := mediaFold_stable env input.media ⟨db0.media, db0.importedFiles⟩
      hmb hme
    exact ⟨congrArg MediaState.media hmed, congrArg MediaState.fs hmed⟩

def c1env : Env := ⟨[], ""⟩

def c1input : GrampsInput :=
  { places := []
    people := [⟨"h1", some "I1", "A", "B", "M", 5, ["e1", "e2"], [], []⟩]
    families := []
    events := [⟨"e1", some "E1", "Birth", some ⟨1990, 1, 1⟩, none, "", []⟩,
               ⟨"e2", some "E2", "Death", none, none, "", []⟩]
    notes := []
    media := [] }

def c1db1 : DB := (importOnce c1env c1input DB.empty).getD DB.empty

def c1db2 : DB := (importOnce c1env c1input c1db1).getD DB.empty

def c1oinput : GrampsInput :=
  { places := []
    people := [⟨"h1", some "I1", "A", "B", "M", 5, ["e1", "e2"], [], []⟩]
    families := []
    events := [⟨"e1", some "E1", "Birth", some ⟨1990, 1, 1⟩, none, "", []⟩,
               ⟨"e2", some "E2", "Birth", some ⟨2000, 1, 1⟩, none, "", []⟩]
    notes := []
    media := [] }

def c1odb1 : DB := (importOnce c1env c1oinput DB.empty).getD DB.empty

def c1odb2 : DB := (importOnce c1env c1oinput c1odb1).getD DB.empty

def c1odb3 : DB := (importOnce c1env c1oinput c1odb2).getD DB.empty

def c1menv : Env := ⟨["b/x.jpg"], ""⟩

def c1minput : GrampsInput :=
  { places := []
    people := []
    families := []
    events := []
    notes := []
    media := [⟨"m1", some "M1", some ⟨"a/x.jpg", "", ""⟩⟩,
              ⟨"m2", some "M2", some ⟨"b/x.jpg", "", ""⟩⟩] }

def c1mdb1 : DB := (importOnce c1menv c1minput DB.empty).getD DB.empty

def c1mdb2 : DB := (importOnce c1menv c1minput c1mdb1).getD DB.empty

/-- C1 counterexample, three ways, all runs succeeding from an empty store:
(i) a dated birth event listed before an undated death event leaves the
deceased flag `false` after run one and `true` after run two, while the
design-refreshed sync field is stored identically; (ii) two birth events
with different dates make the stored birth date oscillate 1990 → 2000 →
1990 over three runs, so the derived fields need not ever stabilise;
(iii) two media records sharing the base name `x.jpg`, the first with an
unresolvable source, store `a/x.jpg` on run one and `imported/x.jpg` on run
two — a media row itself drifts.  The store after the second run is not
identical to the store after the first. -/
theorem C1_counterexample :
    (importOnce c1env c1input DB.empty = some c1db1 ∧
     importOnce c1env c1input c1db1 = some c1db2 ∧
     (alook c1db1.people "I1").map PersonRow.is_deceased = some false ∧
     (alook c1db2.people "I1").map PersonRow.is_deceased = some true ∧
     (alook c1db1.people "I1").map PersonRow.gramps_last_updated =
       (alook c1db2.people "I1").map PersonRow.gramps_last_updated) ∧
    (importOnce c1env c1oinput DB.empty = some c1odb1 ∧
     importOnce c1env c1oinput c1odb1 = some c1odb2 ∧
     importOnce c1env c1oinput c1odb2 = some c1odb3 ∧
     (alook c1odb1.people "I1").map PersonRow.birth_date =
       some (some ⟨1990, 1, 1⟩) ∧
     (alook c1odb2.people "I1").map PersonRow.birth_date =
       some (some ⟨2000, 1, 1⟩) ∧
     (alook c1odb3.people "I1").map PersonRow.birth_date =
       some (some ⟨1990, 1, 1⟩)) ∧
    (importOnce c1menv c1minput DB.empty = some c1mdb1 ∧
     importOnce c1menv c1minput c1mdb1 = some c1mdb2 ∧
     (alook c1mdb1.media "M1").map MediaRow.file_path = some "a/x.jpg" ∧
     (alook c1mdb2.media "M1").map MediaRow.file_path =
       some "imported/x.jpg") := by
  refine ⟨⟨by decide, by decide, by decide, by decide, by decide⟩,
    ⟨by decide, by decide, by decide, by decide, by decide, by decide⟩,
    ⟨by decide, by decide, by decide, by decide⟩⟩

/-- Witness for the amended C1 theorem at the concrete two-run scenario. -/
theorem C1_witness :
    c1db2.places = c1db1.places ∧ c1db2.families = c1db1.families ∧
    c1db2.familyChildren = c1db1.familyChildren ∧ c1db2.events = c1db1.events ∧
    c1db2.notes = c1db1.notes ∧ c1db2.personMedia = c1db1.personMedia ∧
    keysOf c1db2.people = keysOf c1db1.people ∧
    (∀ k, (alook c1db2.people k).map coreOf = (alook c1db1.people k).map coreOf) ∧
    ((keysOf DB.empty.media).Nodup → (mediaBasenames c1input.media).Nodup →
      c1db2.media = c1db1.media ∧ c1db2.importedFiles = c1db1.importedFiles) :=
  C1_second_run_converges c1env c1input DB.empty c1db1 c1db2
    (by decide) (by decide) (by decide) (by decide) (by decide) (by decide)

/-! ## C2: full replacement of a family's child-order list -/

theorem mem_famGids_intro (recs : List FamilyRec) (r : FamilyRec) (gid : String)
    (hr : r ∈ recs) (hgid : truthy r.id = some gid) : gid ∈ famGids recs := by
  simp only [famGids, List.mem_filterMap]
  exact ⟨r, hr, hgid⟩

theorem famRowsOut_filter_at (people : List PersonRec) :
    ∀ (recs : List FamilyRec) (r : FamilyRec) (gid : String),
      (famGids recs).Nodup → r ∈ recs → truthy r.id = some gid →
      (famRowsOut recs people).filter (fun c => c.family = gid) =
        resolvedRows people gid r.childHandles := by
  intro recs
  induction recs with
  | nil => intro r gid _ hr _; exact absurd hr (List.not_mem_nil r)
  | cons x rest ih =>
    intro r gid hnod hr hgid
    cases hid : truthy x.id with
    | none =>
      rw [famRowsOut_cons_none x rest people hid]
      rw [famGids_cons_none x rest hid] at hnod
      rcases List.mem_cons.mp hr with h1 | h2
      · rw [h1] at hgid; rw [hid] at hgid; exact absurd hgid (by simp)
      · exact ih r gid hnod h2 hgid
    | some gid' =>
      rw [famRowsOut_cons_some x rest people gid' hid]
      rw [famGids_cons_some x rest gid' hid] at hnod
      have hnin : gid' ∉ famGids rest := (List.nodup_cons.mp hnod).1
      rw [if_neg hnin, List.filter_append]
      rcases List.mem_cons.mp hr with h1 | h2
      · have hg : gid' = gid := by
          rw [h1] at hgid; rw [hid] at hgid
          exact Option.some.inj hgid
        have hfix1 : (resolvedRows people gid' x.childHandles).filter
            (fun c => c.family = gid) = resolvedRows people gid' x.childHandles := by
          rw [List.filter_eq_self]
          intro c hc
          have hcf := resolvedRows_family people gid' x.childHandles c hc
          simp [hcf, hg]
        have hfix2 : (famRowsOut rest people).filter
            (fun c => c.family = gid) = [] := by
          rw [List.filter_eq_nil_iff]
          intro c hc
          have hcf := famRowsOut_family people rest c hc
          simp only [decide_eq_true_eq]
          intro he
          rw [he, ← hg] at hcf
          exact hnin hcf
        rw [hfix1, hfix2, List.append_nil, h1, hg]
      · have hgmem : gid ∈ famGids rest := mem_famGids_intro rest r gid h2 hgid
        have hne : ¬ gid' = gid := fun he => hnin (he ▸ hgmem)
        have hfix1 : (resolvedRows people gid' x.childHandles).filter
            (fun c => c.family = gid) = [] := by
          rw [List.filter_eq_nil_iff]
          intro c hc
          have hcf := resolvedRows_family people gid' x.childHandles c hc
          simp [hcf, hne]
        rw [hfix1, List.nil_append]
        exact ih r gid (List.nodup_cons.mp hnod).2 h2 hgid

theorem resolvedPairs_orders (people : List PersonRec) (gid : String) :
    ∀ (pairs : List (Nat × String)),
      (∀ p ∈ pairs, (handlePid people p.2).isSome) →
      (pairs.filterMap (fun ih => (handlePid people ih.2).map
        (fun pid => (⟨gid, pid, ih.1⟩ : FCRow)))).map (fun c => c.order) =
        pairs.map (fun p => p.1) := by
  intro pairs
  induction pairs with
  | nil => intro _; rfl
  | cons p rest ih =>
    intro hall
    have hp := hall p (List.mem_cons_self _ _)
    cases hpid : handlePid people p.2 with
    | none => rw [hpid] at hp; simp at hp
    | some pid =>
      simp only [List.filterMap_cons, hpid, Option.map_some, Option.map_some',
        List.map_cons]
      rw [ih (fun q hq => hall q (List.mem_cons_of_mem _ hq))]

theorem snd_mem_of_mem_enumFrom {α : Type} :
    ∀ (l : List α) (n : Nat) (p : Nat × α), p ∈ l.enumFrom n → p.2 ∈ l := by
  intro l
  induction l with
  | nil => intro n p hp; simp [List.enumFrom] at hp
  | cons a rest ih =>
    intro n p hp
    simp only [List.enumFrom] at hp
    rcases List.mem_cons.mp hp with h1 | h2
    · rw [h1]; exact List.mem_cons_self _ _
    · exact List.mem_cons_of_mem _ (ih (n + 1) p h2)

theorem resolvedRows_orders (people : List PersonRec) (gid : String)
    (hs : List String) (hall : ∀ h ∈ hs, (handlePid people h).isSome) :
    (resolvedRows people gid hs).map (fun c => c.order) =
      List.range hs.length := by
  rw [resolvedRows, resolvedPairs_orders people gid hs.enum
    (fun p hp => hall p.2 (snd_mem_of_mem_enumFrom hs 0 p hp))]
  simpa using List.enum_map_fst hs

/-- C2: under a successful family pass, the `FamilyChild` rows of each
imported family (one record per family id, `famGids` duplicate-free) are
exactly the rows recreated from the source's ordered child-handle list —
every prior row of that family is gone, each surviving row's order is its
position in the source list (an unresolvable child handle is dropped
silently, consuming its position), and when every child handle resolves the
order values are exactly 0..n-1 in source order. -/
theorem C2_child_order_replaced (recs : List FamilyRec) (people : List PersonRec)
    (s F : FamState) (r : FamilyRec) (gid : String)
    (h : famFold recs people s = some F) (hr : r ∈ recs)
    (hgid : truthy r.id = some gid) (hnod : (famGids recs).Nodup) :
    F.children.filter (fun c => c.family = gid) =
      resolvedRows people gid r.childHandles ∧
    ((∀ hdl ∈ r.childHandles, (handlePid people hdl).isSome) →
      (F.children.filter (fun c => c.family = gid)).map (fun c => c.order) =
        List.range r.childHandles.length) := by
  have hch := (famFold_some people recs s F h).2
  have hmain : F.children.filter (fun c => c.family = gid) =
      resolvedRows people gid r.childHandles := by
    rw [hch, famChildrenSpec_closed, List.filter_append]
    have h1 : ((s.children.filter (fun c => ¬ c.family ∈ famGids recs)).filter
        (fun c => c.family = gid)) = [] := by
      rw [List.filter_eq_nil_iff]
      intro c hc
      have hc1 : ¬ c.family ∈ famGids recs := by
        simpa using List.of_mem_filter hc
      simp only [decide_eq_true_eq]
      intro he
      exact hc1 (he ▸ mem_famGids_intro recs r gid hr hgid)
    rw [h1, List.nil_append]
    exact famRowsOut_filter_at people recs r gid hnod hr hgid
  refine ⟨hmain, ?_⟩
  intro hall
  rw [hmain]
  exact resolvedRows_orders people gid r.childHandles hall

def c2people : List PersonRec :=
  [⟨"hc1", some "C1", "", "", "U", 0, [], [], []⟩,
   ⟨"hc2", some "C2", "", "", "U", 0, [], [], []⟩,
   ⟨"hc3", some "C3", "", "", "U", 0, [], [], []⟩]

def c2fam : FamilyRec := ⟨"hf1", some "F1", none, none, ["hc1", "hc2", "hc3"], []⟩

def c2prior : FamState :=
  ⟨[], [⟨"F1", "C3", 0⟩, ⟨"F1", "C1", 1⟩, ⟨"F1", "C2", 2⟩]⟩

def c2F : FamState := (famFold [c2fam] c2people c2prior).getD ⟨[], []⟩

/-- Witness for C2: re-importing family `F1` with its children reordered to
`[C1, C2, C3]` over prior rows ordered `[C3, C1, C2]` leaves exactly the new
rows with orders `[0, 1, 2]`. -/
theorem C2_witness :
    c2F.children.filter (fun c => c.family = "F1") =
      resolvedRows c2people "F1" c2fam.childHandles ∧
    ((∀ hdl ∈ c2fam.childHandles, (handlePid c2people hdl).isSome) →
      (c2F.children.filter (fun c => c.family = "F1")).map (fun c => c.order) =
        List.range c2fam.childHandles.length) :=
  C2_child_order_replaced [c2fam] c2people c2prior c2F c2fam "F1"
    (by decide) (by decide) (by decide) (by decide)

/-! ## C3: the local-modification check and its baseline after a re-import -/

theorem lastRecFor_mem {r : Type} (key? : r → Option String) :
    ∀ (recs : List r) (k : String) (x : r), lastRecFor key? recs k = some x →
      x ∈ recs ∧ key? x = some k := by
  intro recs
  induction recs with
  | nil => intro k x h; simp [lastRecFor] at h
  | cons y rest ih =>
    intro k x h
    rw [lastRecFor] at h
    cases hrest : lastRecFor key? rest k with
    | some z =>
      rw [hrest] at h
      have hz := ih k z hrest
      have hx : z = x := Option.some.inj h
      exact ⟨List.mem_cons_of_mem _ (hx ▸ hz.1), hx ▸ hz.2⟩
    | none =>
      rw [hrest] at h
      by_cases hk : key? y = some k
      · rw [if_pos hk] at h
        have hx : y = x := Option.some.inj h
        exact ⟨hx ▸ List.mem_cons_self _ _, hx ▸ hk⟩
      · rw [if_neg hk] at h
        simp at h

/-- C3: with both timestamps set, `has_local_modifications` is true exactly
when `updated_at` exceeds `gramps_last_updated` by more than the one-second
tolerance (so an equal-or-smaller difference yields false); and after a
successful re-import the stored person row of any reconciled key exists and
carries `gramps_last_updated = change time of the last source record for
that key`, so the check is thereafter evaluated against that new
baseline. -/
theorem C3_modification_check_baseline (env : Env) (input : GrampsInput)
    (db0 db1 : DB) (k : String) (x : PersonRec)
    (h1 : importOnce env input db0 = some db1)
    (hx : lastRecFor (fun r => some (personGid r)) input.people k = some x) :
    (∀ u g : Int,
      (has_local_modifications (some u) (some g) = true ↔ toleranceUs < u - g)) ∧
    (alook db1.people k).isSome ∧
    ∀ row, alook db1.people k = some row →
      row.gramps_last_updated = some x.change ∧
      ∀ u : Int, (has_local_modifications (some u) row.gramps_last_updated = true ↔
        toleranceUs < u - x.change) := by
  rw [importOnce_eq] at h1
  obtain ⟨P1, F1, N1, hP1, hF1, hN1, hdb1⟩ := importSpec_some_elim env input db0 db1 h1
  have hiff : ∀ u g : Int,
      (has_local_modifications (some u) (some g) = true ↔ toleranceUs < u - g) := by
    intro u g
    simp [has_local_modifications]
  have hcore : (alook db1.people k).map coreOf =
      (alook (peopleFold input.people db0.people) k).map coreOf := by
    rw [hdb1]
    exact sweep_core (eventsOut input db0.events) [] (peopleFold input.people db0.people) k
  rw [alook_peopleFold input.people db0.people k, hx] at hcore
  have hsome : (alook db1.people k).isSome := by
    cases halook : alook db1.people k with
    | none => rw [halook] at hcore; simp at hcore
    | some row => simp
  refine ⟨hiff, hsome, ?_⟩
  intro row hrow
  rw [hrow] at hcore
  have hglu : row.gramps_last_updated = some x.change := by
    have := congrArg (fun o => o.map (fun c : String × String × String × Option Int => c.2.2.2)) hcore
    simpa [coreOf, applyPersonDefaults] using this
  refine ⟨hglu, ?_⟩
  intro u
  rw [hglu]
  exact hiff u x.change

def c3input : GrampsInput :=
  { places := []
    people := [⟨"h1", some "I1", "A", "B", "M", 42, [], [], []⟩]
    families := []
    events := []
    notes := []
    media := [] }

def c3env : Env := ⟨[], ""⟩

def c3db1 : DB := (importOnce c3env c3input DB.empty).getD DB.empty

/-- Witness for C3 at a concrete one-person import: the stored baseline is
the source change time 42 and the check is evaluated against it. -/
theorem C3_witness :
    (∀ u g : Int,
      (has_local_modifications (some u) (some g) = true ↔ toleranceUs < u - g)) ∧
    (alook c3db1.people "I1").isSome ∧
    ∀ row, alook c3db1.people "I1" = some row →
      row.gramps_last_updated = some (42 : Int) ∧
      ∀ u : Int, (has_local_modifications (some u) row.gramps_last_updated = true ↔
        toleranceUs < u - (42 : Int)) :=
  C3_modification_check_baseline c3env c3input DB.empty c3db1 "I1"
    ⟨"h1", some "I1", "A", "B", "M", 42, [], [], []⟩ (by decide) (by decide)

/-! ## C6: what a missing external id actually does, per entity kind -/

def c6pr : PersonRec := ⟨"h7", none, "X", "Y", "U", 1, [], [], []⟩

/-- C6 counterexample: a person record without an id is not skipped — it is
persisted under its internal handle `h7` as substitute identifier — and a
place record without an id is not skipped either: it aborts the import. -/
theorem C6_counterexample :
    peopleStep [] c6pr = [("h7", newPersonRow c6pr)] ∧
    placesStep [] ⟨none, "Berlin"⟩ = none := by
  refine ⟨by decide, by decide⟩

/-- C6 (amended): a record with a missing (or empty) id is skipped — no row
written, the batch continues — for families, events, notes and media only.
A person record without an id is instead persisted under its internal
handle, and a place record without an id aborts the import command rather
than being skipped. -/
theorem C6_missing_id_behaviour
    (people : List PersonRec) (s : FamState) (r : FamilyRec)
    (places : List PlaceRec) (et : List (String × EventRow)) (er : EventRec)
    (nt : List (String × NoteRow)) (nr : NoteRec)
    (env : Env) (ms : MediaState) (mr : MediaRec)
    (pt : List (String × PersonRow)) (pr : PersonRec)
    (plt : List (String × PlaceRow)) (plr : PlaceRec)
    (hfam : truthy r.id = none) (hev : truthy er.id = none)
    (hnote : truthy nr.id = none) (hmedia : truthy mr.id = none)
    (hperson : pr.id = none) (hplace : plr.id = none) :
    famStep people s r = some s ∧
    eventsUpsertStep places et er = et ∧
    notesStep nt nr = nt ∧
    mediaStep env ms mr = ms ∧
    peopleStep pt pr =
      updateOrCreate pt pr.handle (applyPersonDefaults pr) (newPersonRow pr) ∧
    placesStep plt plr = none := by
  refine ⟨famStep_skip people s r hfam, ?_, ?_,
    mediaStep_skip env ms mr hmedia, ?_, ?_⟩
  · simp [eventsUpsertStep, hev]
  · simp [notesStep, hnote]
  · simp [peopleStep, personGid, hperson]
  · simp [placesStep, hplace]

/-- Witness for the amended C6 theorem at concrete id-less records of every
kind. -/
theorem C6_witness :
    famStep [] ⟨[], []⟩ ⟨"hf", none, none, none, [], []⟩ = some ⟨[], []⟩ ∧
    eventsUpsertStep [] [] ⟨"he", none, "t", none, none, "", []⟩ = [] ∧
    notesStep [] ⟨"hn", none, "txt"⟩ = [] ∧
    mediaStep ⟨[], ""⟩ ⟨[], []⟩ ⟨"hm", some "", none⟩ = ⟨[], []⟩ ∧
    peopleStep [] c6pr =
      updateOrCreate [] c6pr.handle (applyPersonDefaults c6pr) (newPersonRow c6pr) ∧
    placesStep [] ⟨none, "Berlin"⟩ = none :=
  C6_missing_id_behaviour [] ⟨[], []⟩ ⟨"hf", none, none, none, [], []⟩
    [] [] ⟨"he", none, "t", none, none, "", []⟩
    [] ⟨"hn", none, "txt"⟩
    ⟨[], ""⟩ ⟨[], []⟩ ⟨"hm", some "", none⟩
    [] c6pr [] ⟨none, "Berlin"⟩
    (by decide) (by decide) (by decide) (by decide) (by decide) (by decide)

/-! ## C7: two same-named media files in one run -/

def c7env : Env := ⟨["a/photo.jpg", "b/photo.jpg"], ""⟩

def c7recs : List MediaRec :=
  [⟨"m1", some "M1", some ⟨"a/photo.jpg", "image/jpeg", ""⟩⟩,
   ⟨"m2", some "M2", some ⟨"b/photo.jpg", "image/jpeg", ""⟩⟩]

def c7s : MediaState := mediaFold c7recs c7env ⟨[], []⟩

/-- C7 counterexample: two distinct available sources both named
`photo.jpg` imported in one run yield two media rows with the *same* stored
path `imported/photo.jpg` — no numeric suffix — and only one file is
copied. -/
theorem C7_counterexample :
    (alook c7s.media "M1").map MediaRow.file_path = some "imported/photo.jpg" ∧
    (alook c7s.media "M2").map MediaRow.file_path = some "imported/photo.jpg" ∧
    c7s.fs = ["photo.jpg"] := by
  refine ⟨by decide, by decide, by decide⟩

/-- C7 (amended): when the first of two same-named records is processed the
destination does not yet exist, so the collision loop returns the name
unchanged and the file is copied under its own base name, extending the
listing; the second record then finds `imported/<name>` present and reuses
that path without copying — its row points at the first file's copy, no
suffixed name is ever produced, and no existing file is overwritten
(the listing only grows by the one fresh name). -/
theorem C7_second_file_reuses_path (env : Env) (s : MediaState)
    (r1 r2 : MediaRec) (g1 g2 : String) (f1 f2 : MediaFileRec) (src : String)
    (hid1 : truthy r1.id = some g1) (hf1 : r1.file = some f1)
    (hid2 : truthy r2.id = some g2) (hf2 : r2.file = some f2)
    (hbn : pyBasename f2.src = pyBasename f1.src)
    (hm : pyBasename f1.src ∉ s.fs)
    (hfind : findSource env f1.src (pyBasename f1.src) = some src) :
    collisionLoop s.fs (splitExt (pyBasename f1.src)).1
      (splitExt (pyBasename f1.src)).2 (pyBasename f1.src) 1 (s.fs.length + 1) =
      pyBasename f1.src ∧
    mediaStep env s r1 =
      mediaUpsert { s with fs := s.fs ++ [pyBasename f1.src] } g1
        ⟨"imported/" ++ pyBasename f1.src, f1.mime, f1.description⟩ ∧
    mediaStep env (mediaStep env s r1) r2 =
      mediaUpsert (mediaStep env s r1) g2
        ⟨"imported/" ++ pyBasename f1.src, f2.mime, f2.description⟩ ∧
    (mediaStep env (mediaStep env s r1) r2).fs = s.fs ++ [pyBasename f1.src] := by
  have hloop := collisionLoop_not_mem s.fs (splitExt (pyBasename f1.src)).1
    (splitExt (pyBasename f1.src)).2 (pyBasename f1.src) 1 (s.fs.length + 1)
    (Nat.succ_pos _) hm
  have hstep1 := mediaStep_copy env s r1 g1 f1 src hid1 hf1 hm hfind
  have hfs1 : (mediaStep env s r1).fs = s.fs ++ [pyBasename f1.src] := by
    rw [hstep1]; rfl
  have hmem2 : pyBasename f2.src ∈ (mediaStep env s r1).fs := by
    rw [hbn, hfs1]
    exact List.mem_append_right _ (List.mem_singleton.mpr rfl)
  have hstep2 := mediaStep_reuse env (mediaStep env s r1) r2 g2 f2 hid2 hf2 hmem2
  rw [hbn] at hstep2
  refine ⟨hloop, hstep1, hstep2, ?_⟩
  rw [hstep2]
  show (mediaStep env s r1).fs = s.fs ++ [pyBasename f1.src]
  exact hfs1

/-- Witness for the amended C7 theorem at the concrete two-file scenario. -/
theorem C7_witness :
    collisionLoop ([] : List String) (splitExt (pyBasename "a/photo.jpg")).1
      (splitExt (pyBasename "a/photo.jpg")).2 (pyBasename "a/photo.jpg") 1
      (List.length ([] : List String) + 1) = pyBasename "a/photo.jpg" ∧
    mediaStep c7env ⟨[], []⟩ ⟨"m1", some "M1", some ⟨"a/photo.jpg", "image/jpeg", ""⟩⟩ =
      mediaUpsert ⟨[], [] ++ [pyBasename "a/photo.jpg"]⟩ "M1"
        ⟨"imported/" ++ pyBasename "a/photo.jpg", "image/jpeg", ""⟩ ∧
    mediaStep c7env
        (mediaStep c7env ⟨[], []⟩ ⟨"m1", some "M1", some ⟨"a/photo.jpg", "image/jpeg", ""⟩⟩)
        ⟨"m2", some "M2", some ⟨"b/photo.jpg", "image/jpeg", ""⟩⟩ =
      mediaUpsert
        (mediaStep c7env ⟨[], []⟩ ⟨"m1", some "M1", some ⟨"a/photo.jpg", "image/jpeg", ""⟩⟩)
        "M2" ⟨"imported/" ++ pyBasename "a/photo.jpg", "image/jpeg", ""⟩ ∧
    (mediaStep c7env
        (mediaStep c7env ⟨[], []⟩ ⟨"m1", some "M1", some ⟨"a/photo.jpg", "image/jpeg", ""⟩⟩)
        ⟨"m2", some "M2", some ⟨"b/photo.jpg", "image/jpeg", ""⟩⟩).fs =
      [] ++ [pyBasename "a/photo.jpg"] :=
  C7_second_file_reuses_path c7env ⟨[], []⟩
    ⟨"m1", some "M1", some ⟨"a/photo.jpg", "image/jpeg", ""⟩⟩
    ⟨"m2", some "M2", some ⟨"b/photo.jpg", "image/jpeg", ""⟩⟩
    "M1" "M2" ⟨"a/photo.jpg", "image/jpeg", ""⟩ ⟨"b/photo.jpg", "image/jpeg", ""⟩
    "a/photo.jpg" (by decide) (by decide) (by decide) (by decide) (by decide)
    (by decide) (by decide)

end Malbat
